import Mathlib

/-!
geosite: validation, aggregation and encoding of remote domain lists

A shallow embedding of `main.go` and the properties of its pipeline.

* A Go string is modelled by the sequence of its runes (`List Char`); `len` is the number of
  bytes of its UTF-8 encoding. Strings that are not valid UTF-8 are outside the model.
* The functions of the Go library are modelled by what they compute: `strings.Split`,
  `strings.TrimSpace`, `strings.HasPrefix`, `sort.Strings`, and the regular expression of
  `domainRegex` as a `RegularExpression Char` matched against the whole string. The case
  tables of `unicode` are parameters.
* `http.Get` and the scanner are the environment: a response is a status code, the lines that
  the scanner returns, and the error on which the scan ends, if any. For a body that arrives
  whole, `scanLines` gives these lines and this error from the text of the body.
* The goroutines and the channel of `main` are modelled by the sequence of the values received:
  the outcomes of the sources started, in any order. The order in which `range` goes through
  the map is a parameter as well.
* `main` is followed up to the `GeoSiteList` that it hands to `proto.Marshal`.
-/

namespace Geosite

/-- A Go string, as the sequence of its runes. -/
abbrev GoString := List Char

/-- Go `len(s)`: the number of bytes of the UTF-8 encoding of `s`. -/
def goLen (s : GoString) : Nat := (s.map Char.utf8Size).sum

/-! ## The regular expression of `domainRegex` -/

/-- A character class `[...]`: the alternation of the listed runes. -/
def charClass : List Char → RegularExpression Char
  | [] => 0
  | c :: cs => RegularExpression.char c + charClass cs

/-- The quantifier `?`. -/
def optional (r : RegularExpression Char) : RegularExpression Char := 1 + r

/-- The quantifier `{0,n}`. -/
def repUpTo (r : RegularExpression Char) : Nat → RegularExpression Char
  | 0 => 1
  | n + 1 => optional (r * repUpTo r n)

/-- The quantifier `+`. -/
def oneOrMore (r : RegularExpression Char) : RegularExpression Char := r * RegularExpression.star r

/-- The runes of `a-zA-Z0-9`. -/
def alnumChars : List Char :=
  "abcdefghijklmnopqrstuvwxyzABCDEFGHIJKLMNOPQRSTUVWXYZ0123456789".toList

/-- The class `[a-zA-Z0-9]`. -/
def alnumClass : RegularExpression Char := charClass alnumChars

/-- The class `[a-zA-Z0-9-]`. -/
def alnumHyphenClass : RegularExpression Char := charClass (alnumChars ++ ['-'])

/-- The sub-expression `[a-zA-Z0-9]([a-zA-Z0-9-]{0,61}[a-zA-Z0-9])?`. -/
def labelRegex : RegularExpression Char :=
  alnumClass * optional (repUpTo alnumHyphenClass 61 * alnumClass)

/-- The pattern of `domainRegex`; the anchors `^` and `$` make a match a match of the whole
string: `^([a-zA-Z0-9]([a-zA-Z0-9-]{0,61}[a-zA-Z0-9])?\.)+[a-zA-Z0-9]([a-zA-Z0-9-]{0,61}[a-zA-Z0-9])?$`. -/
def domainRegex : RegularExpression Char :=
  oneOrMore (labelRegex * RegularExpression.char '.') * labelRegex

/-- The function `isValidDomain`: at most 253 bytes, and matched by `domainRegex`. -/
def isValidDomain (domain : GoString) : Bool :=
  if goLen domain > 253 then false
  else domainRegex.rmatch domain

/-! ## The grammar of the specification -/

/-- Go `strings.Split(s, sep)` for a separator of one rune: the fields between the occurrences
of `sep`; the empty string has the single field `""`. -/
def splitOn (sep : Char) : GoString → List GoString
  | [] => [[]]
  | c :: cs =>
    if c = sep then [] :: splitOn sep cs
    else
      match splitOn sep cs with
      | [] => [[c]]
      | l :: ls => (c :: l) :: ls

/-- A label of the specification: 1 to 63 runes, each an ASCII letter, a digit or `-`, the first
and the last not `-`. -/
def validLabel (l : GoString) : Prop :=
  1 ≤ l.length ∧ l.length ≤ 63 ∧ (∀ c ∈ l, c.isAlphanum = true ∨ c = '-') ∧
    l.head? ≠ some '-' ∧ l.getLast? ≠ some '-'

instance (l : GoString) : Decidable (validLabel l) := by
  unfold validLabel; infer_instance

/-- The grammar as the specification words it: at most 253 characters, one or more labels
separated by `.`, each a valid label. -/
def specValidDomain (s : GoString) : Prop :=
  s.length ≤ 253 ∧ 1 ≤ (splitOn '.' s).length ∧ ∀ l ∈ splitOn '.' s, validLabel l

instance (s : GoString) : Decidable (specValidDomain s) := by
  unfold specValidDomain; infer_instance

/-! ## The library functions of package `strings` used by the program -/

/-- Go `unicode.IsSpace`: the white space of Latin-1 and the runes of the Unicode property
`White_Space` above it. -/
def isSpace (c : Char) : Bool :=
  let n := c.toNat
  (9 ≤ n && n ≤ 13) || n == 32 || n == 0x85 || n == 0xA0 || n == 0x1680 ||
    (0x2000 ≤ n && n ≤ 0x200A) || n == 0x2028 || n == 0x2029 || n == 0x202F ||
    n == 0x205F || n == 0x3000

/-- Go `strings.TrimSpace`: the string without its leading and trailing white space. -/
def trimSpace (s : GoString) : GoString :=
  ((s.dropWhile isSpace).reverse.dropWhile isSpace).reverse

/-- Go `strings.HasPrefix(s, p)`. -/
def hasPrefix (s p : GoString) : Bool := p.isPrefixOf s

/-- The rune mappings `unicode.ToLower` and `unicode.ToUpper` of the Go library. Their tables are
not part of the program: they are parameters of the model, and a theorem that needs a property
of them states it as a hypothesis. -/
structure CaseMapping where
  /-- The mapping `unicode.ToLower`. -/
  lower : Char → Char
  /-- The mapping `unicode.ToUpper`. -/
  upper : Char → Char

/-- The case mapping that changes the ASCII letters only. -/
def asciiCase : CaseMapping := ⟨Char.toLower, Char.toUpper⟩

/-- Go `strings.ToLower`: every rune mapped by `unicode.ToLower`. -/
def toLower (U : CaseMapping) (s : GoString) : GoString := s.map U.lower

/-- Go `strings.ToUpper`: every rune mapped by `unicode.ToUpper`. -/
def toUpper (U : CaseMapping) (s : GoString) : GoString := s.map U.upper

/-- Go `sort.Strings`: the strings in ascending lexicographic order. -/
def sortStrings (l : List GoString) : List GoString := l.insertionSort (· ≤ ·)

/-! ## Errors -/

/-- The values of type `error` of the program, one constructor for each place that makes one. -/
inductive GoError where
  /-- An error returned by the library: by `http.Get` or by the scanner. -/
  | external (msg : GoString)
  /-- The error of `downloadList` when `http.Get` fails. -/
  | getFailed (url : GoString) (cause : GoError)
  /-- The error of `downloadList` when the status code is not 200. -/
  | badStatus (url : GoString) (code : Nat)
  /-- The error of `downloadList` when reading the body fails. -/
  | readFailed (url : GoString) (cause : GoError)
  /-- The error of `parseURLLine` when the line does not have two fields. -/
  | badFormat (line : GoString)
  /-- The error of `parseURLLine` when the first field is empty. -/
  | emptyPrefix
  /-- The error of `parseURLLine` when the second field is empty. -/
  | emptyURL
  /-- An error of `parseURLLine` as `main` records it. -/
  | parseFailed (cause : GoError)
  /-- An error of `downloadList` as `main` records it. -/
  | downloadFailed (label : GoString) (cause : GoError)
  deriving DecidableEq

/-! ## `downloadList` -/

/-- What `http.Get` answers, as `downloadList` sees it: the status code, the lines that the
scanner over the body returns one after the other (`scanner.Text()` of each iteration), and the
error of the scanner after the last of them (`scanner.Err()`), if any. -/
structure Response where
  StatusCode : Nat
  lines : List GoString
  scanErr : Option GoError
  deriving DecidableEq

/-- The constant `http.StatusOK`. -/
def StatusOK : Nat := 200

/-- The variables of the loop of `downloadList`, and the warnings printed so far: each is the
line number and the trimmed line. -/
structure ScanState where
  domains : List GoString
  lineNumber : Nat
  warnings : List (Nat × GoString)
  deriving DecidableEq

/-- The test of the loop of `downloadList` for an empty line or a comment line. -/
def isSkipped (line : GoString) : Bool :=
  line == [] || hasPrefix line "#".toList || hasPrefix line "//".toList ||
    hasPrefix line "!".toList

/-- One iteration of the loop of `downloadList` on the line `text`. -/
def scanStep (U : CaseMapping) (st : ScanState) (text : GoString) : ScanState :=
  let lineNumber := st.lineNumber + 1
  let line := trimSpace text
  if isSkipped line then
    { st with lineNumber := lineNumber }
  else
    let domainLower := toLower U line
    if isValidDomain domainLower then
      { st with lineNumber := lineNumber, domains := st.domains ++ [domainLower] }
    else
      { st with lineNumber := lineNumber, warnings := st.warnings ++ [(lineNumber, line)] }

/-- The loop of `downloadList` over the lines of the body. -/
def scanLoop (U : CaseMapping) (lines : List GoString) : ScanState :=
  lines.foldl (scanStep U) { domains := [], lineNumber := 0, warnings := [] }

/-- The results of `downloadList`, and the warnings it prints. -/
structure DownloadOutput where
  domains : List GoString
  err : Option GoError
  warnings : List (Nat × GoString)
  deriving DecidableEq

/-- The function `downloadList`; `httpGet` is the answer of `http.Get` for each URL. -/
def downloadList (U : CaseMapping) (httpGet : GoString → Except GoError Response)
    (url : GoString) : DownloadOutput :=
  match httpGet url with
  | .error err => { domains := [], err := some (.getFailed url err), warnings := [] }
  | .ok resp =>
    if resp.StatusCode ≠ StatusOK then
      { domains := [], err := some (.badStatus url resp.StatusCode), warnings := [] }
    else
      let st := scanLoop U resp.lines
      match resp.scanErr with
      | some err => { domains := st.domains, err := some (.readFailed url err),
                      warnings := st.warnings }
      | none => { domains := st.domains, err := none, warnings := st.warnings }

/-- The sequence that the specification describes for a body read without error: each line
trimmed, the empty lines and the comment lines dropped, the others put in lower case, and those
that are valid domains kept. -/
def specDomains (U : CaseMapping) (lines : List GoString) : List GoString :=
  (((lines.map trimSpace).filter (fun l => !isSkipped l)).map (toLower U)).filter isValidDomain

/-- The warnings that the specification describes: for each line, numbered from 1, that is
neither empty nor a comment and is not a valid domain in lower case, its number and its
trimmed text. -/
def specWarnings (U : CaseMapping) (lines : List GoString) : List (Nat × GoString) :=
  ((lines.enumFrom 1).filter (fun p =>
      !isSkipped (trimSpace p.2) && !isValidDomain (toLower U (trimSpace p.2)))).map
    (fun p => (p.1, trimSpace p.2))

/-! ## `parseURLLine` and `processURL` -/

/-- The structure `URLItem`. -/
structure URLItem where
  Prefix : GoString
  URL : GoString
  deriving DecidableEq

/-- The function `parseURLLine`. -/
def parseURLLine (U : CaseMapping) (line : GoString) : Except GoError URLItem :=
  match splitOn ',' line with
  | [part0, part1] =>
    let label := trimSpace part0
    let url := trimSpace part1
    if label = [] then .error .emptyPrefix
    else if url = [] then .error .emptyURL
    else .ok { Prefix := toUpper U label, URL := url }
  | _ => .error (.badFormat line)

/-- The structure `DownloadResult`. -/
structure DownloadResult where
  Prefix : GoString
  Domains : List GoString
  Err : Option GoError
  deriving DecidableEq

/-- The function `processURL`: the value it sends on the channel. -/
def processURL (U : CaseMapping) (httpGet : GoString → Except GoError Response)
    (urlItem : URLItem) : DownloadResult :=
  let out := downloadList U httpGet urlItem.URL
  { Prefix := urlItem.Prefix, Domains := out.domains, Err := out.err }

/-! ## `main` -/

/-- The state of the loop of `main` over the configuration file: the items for which a
goroutine was started, in the order of the file, and `processingErrors`. -/
structure ConfigState where
  launched : List URLItem
  processingErrors : List GoError
  deriving DecidableEq

/-- One iteration of the loop of `main` over the configuration file. -/
def configStep (U : CaseMapping) (st : ConfigState) (text : GoString) : ConfigState :=
  let line := trimSpace text
  if line == [] || hasPrefix line "#".toList then st
  else
    match parseURLLine U line with
    | .error err => { st with processingErrors := st.processingErrors ++ [.parseFailed err] }
    | .ok urlItem => { st with launched := st.launched ++ [urlItem] }

/-- The loop of `main` over the lines of the configuration file. -/
def readConfig (U : CaseMapping) (lines : List GoString) : ConfigState :=
  lines.foldl (configStep U) { launched := [], processingErrors := [] }

/-- The values sent on the channel, one for each goroutine, in the order the goroutines were
started; `http i` is the answer of `http.Get` to the goroutine started in position `i`. -/
def outcomes (U : CaseMapping) (http : Nat → GoString → Except GoError Response)
    (launched : List URLItem) : List DownloadResult :=
  launched.enum.map (fun p => processURL U (http p.1) p.2)

/-- A Go `map[string][]string`: a list of bindings in which a binding hides the later bindings
of its key. -/
abbrev GoMap := List (GoString × List GoString)

/-- The assignment `m[k] = v`. -/
def GoMap.set (m : GoMap) (k : GoString) (v : List GoString) : GoMap := (k, v) :: m

/-- The expression `m[k]`: the value bound to `k`, or the nil slice. -/
def GoMap.get (m : GoMap) (k : GoString) : List GoString := (m.lookup k).getD []

/-- The keys of the map, each once. -/
def GoMap.keys (m : GoMap) : List GoString := (m.map Prod.fst).dedup

/-- The state of the loop of `main` over the channel: `downloadedSites` and
`processingErrors`. -/
structure CollectState where
  downloadedSites : GoMap
  processingErrors : List GoError
  deriving DecidableEq

/-- One iteration of the loop of `main` over the channel. -/
def collectStep (st : CollectState) (result : DownloadResult) : CollectState :=
  match result.Err with
  | some err =>
    { st with processingErrors := st.processingErrors ++ [.downloadFailed result.Prefix err] }
  | none => { st with downloadedSites := st.downloadedSites.set result.Prefix result.Domains }

/-- The loop of `main` over the channel; `arrived` is the sequence of the values received and
`errs` the errors recorded before it. -/
def collect (errs : List GoError) (arrived : List DownloadResult) : CollectState :=
  arrived.foldl collectStep { downloadedSites := [], processingErrors := errs }

/-- The enumeration `Domain_Type` of the schema (package `routercommon`): `Plain` uses the value
as a keyword, `Regex` as a regular expression, `RootDomain` as a domain together with its
subdomains, `Full` as the whole domain. -/
inductive Domain_Type where
  | Plain
  | Regex
  | RootDomain
  | Full
  deriving DecidableEq

/-- The message `Domain` of the schema; the program leaves the attributes empty. -/
structure Domain where
  Type_ : Domain_Type
  Value : GoString
  deriving DecidableEq

/-- The message `GeoSite` of the schema. -/
structure GeoSite where
  CountryCode : GoString
  Domain : List Domain
  deriving DecidableEq

/-- The message `GeoSiteList` of the schema. -/
structure GeoSiteList where
  Entry : List GeoSite
  deriving DecidableEq

/-- The inner loop of the encoding in `main`: one `Domain` for each domain of a label. -/
def encodeDomains (domains : List GoString) : List Domain :=
  domains.foldl (fun acc domain => acc ++ [{ Type_ := .RootDomain, Value := domain }]) []

/-- The encoding in `main`: `ranged` is the sequence of keys that `range downloadedSites`
produces, in an order that Go does not fix; the keys are sorted and one `GeoSite` is appended
for each. -/
def encode (ranged : List GoString) (downloadedSites : GoMap) : GeoSiteList :=
  let prefixes := sortStrings ranged
  { Entry := prefixes.foldl (fun acc label =>
      acc ++ [{ CountryCode := label, Domain := encodeDomains (downloadedSites.get label) }]) [] }

/-- How `main` ends: with the `GeoSiteList` that it goes on to serialise and write, or with the
panic that reports the recorded errors. -/
inductive RunResult where
  | output (list : GeoSiteList)
  | aborted (errors : List GoError)
  deriving DecidableEq

/-- The end of `main`, from the check of `processingErrors` on. -/
def finish (st : CollectState) (ranged : List GoString) : RunResult :=
  if st.processingErrors.length > 0 then .aborted st.processingErrors
  else .output (encode ranged st.downloadedSites)

/-- The function `main` from the reading of the configuration file to the `GeoSiteList`:
`lines` are the lines of the configuration file, `arrived` the values received from the
channel in their order of arrival, `ranged` the keys of the map in the order of `range`. -/
def run (U : CaseMapping) (lines : List GoString) (arrived : List DownloadResult)
    (ranged : List GoString) : RunResult :=
  let cfg := readConfig U lines
  finish (collect cfg.processingErrors arrived) ranged

/-- The values that can be received from the channel in one run: those sent by the goroutines
started for the configuration, in any order. -/
def Arrival (U : CaseMapping) (http : Nat → GoString → Except GoError Response)
    (lines : List GoString) (arrived : List DownloadResult) : Prop :=
  arrived.Perm (outcomes U http (readConfig U lines).launched)

/-- The orders in which `range` can produce the keys of a map. -/
def Ranged (m : GoMap) (ranged : List GoString) : Prop := ranged.Perm m.keys

/-- The lines of the configuration file that `main` hands to `parseURLLine`: the lines trimmed,
without those that are empty or start with `#`. -/
def parsedLines (lines : List GoString) : List GoString :=
  (lines.map trimSpace).filter (fun line => !(line == [] || hasPrefix line "#".toList))

/-- The error that `main` records for a line, if `parseURLLine` rejects it. -/
def parseError (U : CaseMapping) (line : GoString) : Option GoError :=
  match parseURLLine U line with
  | .error err => some (.parseFailed err)
  | .ok _ => none

/-- The error that `main` records for a value received from the channel, if it carries one. -/
def downloadError (result : DownloadResult) : Option GoError :=
  result.Err.map (fun err => GoError.downloadFailed result.Prefix err)

/-! ## Examples -/

/-- A response with status 200 and the given lines, read to the end. -/
def okResponse (lines : List GoString) : Except GoError Response :=
  .ok { StatusCode := StatusOK, lines := lines, scanErr := none }

/-- Two outcomes without error and with one label, as two configuration lines with the label
`CN` produce them. -/
def sameLabelOutcomes : List DownloadResult :=
  [{ Prefix := "CN".toList, Domains := ["a.com".toList], Err := none },
   { Prefix := "CN".toList, Domains := ["b.com".toList], Err := none }]

/-- A configuration of two sources. -/
def twoSources : List GoString := ["CN,http://x/cn.txt".toList, "US,http://x/us.txt".toList]

/-- A configuration of one malformed line and one source. -/
def malformedConfig : List GoString := ["bad".toList, "CN,http://x/cn.txt".toList]

/-- The remote content of the examples: the list of `cn.txt`, and `google.com` elsewhere. -/
def exampleHttp : Nat → GoString → Except GoError Response := fun _ url =>
  if url = "http://x/cn.txt".toList then
    okResponse ["baidu.com".toList, "#comment".toList, "BAD_DOMAIN".toList]
  else okResponse ["google.com".toList]

/-- Remote content of which the list of `us.txt` answers with status 404. -/
def failingHttp : Nat → GoString → Except GoError Response := fun _ url =>
  if url = "http://x/us.txt".toList then
    .ok { StatusCode := 404, lines := [], scanErr := none }
  else okResponse ["baidu.com".toList]

/-- A map of two labels. -/
def exampleSites : GoMap :=
  [("US".toList, ["google.com".toList]), ("CN".toList, ["baidu.com".toList, "qq.com".toList])]

/-- The body of the example `cn.txt`, as a response read to the end. -/
def cnResponse : Response :=
  { StatusCode := StatusOK,
    lines := ["baidu.com".toList, "#comment".toList, "BAD_DOMAIN".toList], scanErr := none }

/-! ## Definitions for the later properties -/

/-- Two strings that differ only in the case of their ASCII letters: they are equal once the
ASCII letters are put in lower case. -/
def differOnlyInCase (a b : GoString) : Prop := a.map Char.toLower = b.map Char.toLower

instance (a b : GoString) : Decidable (differOnlyInCase a b) := by
  unfold differOnlyInCase; infer_instance

/-- The first field of a configuration line, trimmed: the label as written. -/
def labelField (line : GoString) : GoString := trimSpace ((splitOn ',' line).getD 0 [])

/-- The second field of a configuration line, trimmed. -/
def urlField (line : GoString) : GoString := trimSpace ((splitOn ',' line).getD 1 [])

/-- The last outcome without error that carries the label `k`, among the outcomes in their
order of arrival. -/
def lastOutcome (arrived : List DownloadResult) (k : GoString) : Option DownloadResult :=
  (arrived.filter (fun r => r.Err.isNone && r.Prefix == k)).getLast?

/-- Three outcomes: two without error for the label `CN` and, between them, one with an error
and the domains read before it. -/
def repeatedLabelOutcomes : List DownloadResult :=
  [{ Prefix := "CN".toList, Domains := ["a.com".toList], Err := none },
   { Prefix := "US".toList, Domains := ["u.com".toList],
     Err := some (.readFailed "http://x/us.txt".toList (.external "reset".toList)) },
   { Prefix := "CN".toList, Domains := ["b.com".toList], Err := none }]

/-- A response with status 200 whose scan fails after two lines. -/
def brokenResponse : Response :=
  { StatusCode := StatusOK, lines := ["baidu.com".toList, "BAD_DOMAIN".toList],
    scanErr := some (.external "unexpected EOF".toList) }

/-! ## The goroutines of `main` -/

/-- Where a goroutine that runs `processURL` is. -/
inductive Worker where
  /-- Before the send: it prints and runs `downloadList`. -/
  | fetching
  /-- At `resultChan <- ...`: the channel has no buffer, the send waits for the receiver. -/
  | sending
  /-- The send is done; the deferred `wg.Done()` has not run yet. -/
  | sent
  /-- It has returned. -/
  | done
  deriving DecidableEq

/-- Where `main` is. -/
inductive MainAt where
  /-- In the loop over the configuration file. -/
  | launching
  /-- In the loop `for result := range resultChan`. -/
  | receiving
  /-- After that loop. -/
  | finished
  deriving DecidableEq

/-- Where the goroutine that waits and closes the channel is. -/
inductive Closer where
  /-- Not started: `main` starts it after the loop over the configuration file. -/
  | notStarted
  /-- At `wg.Wait()`. -/
  | waiting
  /-- It has run `close(resultChan)`. -/
  | closed
  deriving DecidableEq

/-- A state of the goroutines: the number of sources still to start, the goroutines started, in
the order of their start, the counter of the `WaitGroup`, `main`, the closing goroutine, and
the positions of the goroutines whose value `main` has received, in the order of receipt. -/
structure Sched where
  todo : Nat
  workers : List Worker
  wg : Nat
  main : MainAt
  closer : Closer
  received : List Nat
  deriving DecidableEq

/-- The steps of the goroutines. -/
inductive Action where
  /-- The loop of `main` over the configuration: `wg.Add(1)` and `go processURL(...)`. -/
  | launch
  /-- The end of that loop: `main` starts the closing goroutine and goes to the `range` loop. -/
  | startCloser
  /-- The call of `downloadList` in goroutine `i` returns. -/
  | fetched (i : Nat)
  /-- Goroutine `i` sends and `main` receives: the channel is made by `make(chan
  DownloadResult)`, without a capacity, so that a send and a receive happen together. -/
  | handoff (i : Nat)
  /-- The deferred `wg.Done()` of goroutine `i`. -/
  | workerDone (i : Nat)
  /-- The closing goroutine: `wg.Wait()` returns, the counter being 0, and the channel is
  closed. -/
  | close
  /-- The `range` loop of `main` ends on the closed channel. -/
  | exitLoop
  deriving DecidableEq

/-- One step: the state after the action, if the action can happen in the state. -/
def step (a : Action) (s : Sched) : Option Sched :=
  match a with
  | .launch =>
    if s.main = .launching ∧ 0 < s.todo then
      some { s with todo := s.todo - 1, workers := s.workers ++ [.fetching], wg := s.wg + 1 }
    else none
  | .startCloser =>
    if s.main = .launching ∧ s.todo = 0 then
      some { s with main := .receiving, closer := .waiting }
    else none
  | .fetched i =>
    if s.workers[i]? = some .fetching then
      some { s with workers := s.workers.set i .sending }
    else none
  | .handoff i =>
    if s.workers[i]? = some .sending ∧ s.main = .receiving then
      some { s with workers := s.workers.set i .sent, received := s.received ++ [i] }
    else none
  | .workerDone i =>
    if s.workers[i]? = some .sent then
      some { s with workers := s.workers.set i .done, wg := s.wg - 1 }
    else none
  | .close =>
    if s.closer = .waiting ∧ s.wg = 0 then some { s with closer := .closed } else none
  | .exitLoop =>
    if s.main = .receiving ∧ s.closer = .closed then some { s with main := .finished }
    else none

/-- The state in which `main` enters the loop over a configuration of `n` sources. -/
def initSched (n : Nat) : Sched :=
  { todo := n, workers := [], wg := 0, main := .launching, closer := .notStarted,
    received := [] }

/-- The state after a sequence of actions, if each can happen in its turn. -/
def exec : List Action → Sched → Option Sched
  | [], s => some s
  | a :: as, s =>
    match step a s with
    | some t => exec as t
    | none => none

/-- Goroutine `i` can take a step in the state. -/
def workerEnabled (s : Sched) (i : Nat) : Bool :=
  (step (.fetched i) s).isSome || (step (.handoff i) s).isSome ||
    (step (.workerDone i) s).isSome

/-- The steps that a goroutine has before it: 3 before the send, 0 once returned. -/
def Worker.weight : Worker → Nat
  | .fetching => 3
  | .sending => 2
  | .sent => 1
  | .done => 0

/-- A bound on the number of steps that can follow a state. -/
def Sched.measure (s : Sched) : Nat :=
  4 * s.todo + (s.workers.map Worker.weight).sum +
    (match s.main with | .launching => 3 | .receiving => 1 | .finished => 0) +
    (match s.closer with | .closed => 0 | _ => 1)

/-- The goroutine has not returned. -/
def Worker.running : Worker → Bool
  | .done => false
  | _ => true

/-- What holds in every state that the goroutines can reach for `n` sources. -/
structure Sched.Inv (n : Nat) (s : Sched) : Prop where
  /-- Every source is still to start or has its goroutine. -/
  total : s.todo + s.workers.length = n
  /-- The counter of the `WaitGroup` counts the goroutines that have not returned. -/
  counter : s.wg = s.workers.countP Worker.running
  /-- The closing goroutine is started when `main` leaves the loop over the configuration. -/
  launching : s.main = .launching ↔ s.closer = .notStarted
  /-- After that loop no source is left to start. -/
  started : s.main ≠ .launching → s.todo = 0
  /-- The channel is closed only when the counter is 0. -/
  closed : s.closer = .closed → s.wg = 0
  /-- The loop over the channel ends only on the closed channel. -/
  finished : s.main = .finished → s.closer = .closed
  /-- No value is received twice. -/
  nodup : s.received.Nodup
  /-- The values received are those of the goroutines that have sent. -/
  received : ∀ i, i ∈ s.received ↔ (s.workers[i]? = some .sent ∨ s.workers[i]? = some .done)

/-- The state with one source still to start in which the first goroutine has fetched its list
and waits at its send. -/
def blockedState : Sched :=
  { todo := 1, workers := [.sending], wg := 1, main := .launching, closer := .notStarted,
    received := [] }

/-- A run of two goroutines in which the second is received first. -/
def exampleRun : List Action :=
  [.launch, .launch, .startCloser, .fetched 1, .handoff 1, .fetched 0, .workerDone 1,
   .handoff 0, .workerDone 0, .close, .exitLoop]

/-! ## The scanner over a body -/

/-- The constant `bufio.MaxScanTokenSize`, the limit of the scanner that `bufio.NewScanner`
makes: a line and its end have to fit in a buffer of this size. -/
def MaxScanTokenSize : Nat := 64 * 1024

/-- The error `bufio.ErrTooLong`. -/
def ErrTooLong : GoError := .external "bufio.Scanner: token too long".toList

/-- The function `dropCR` of package `bufio`: the data without a final carriage return. -/
def dropCR (data : GoString) : GoString :=
  if data.getLast? = some '\r' then data.dropLast else data

/-- The scanner of `bufio.NewScanner` (split function `ScanLines`) over the segments that the
line feeds cut a body into: each segment is returned without its final carriage return, the
last one only if it is not empty; a segment of `MaxScanTokenSize` bytes or more fills the
buffer before its end is found and stops the scan with `ErrTooLong`. The result is the tokens
returned, and the error of the scanner. -/
def scanTokens : List GoString → List GoString × Option GoError
  | [] => ([], none)
  | [last] =>
    if MaxScanTokenSize ≤ goLen last then ([], some ErrTooLong)
    else if last = [] then ([], none)
    else ([dropCR last], none)
  | seg :: next :: rest =>
    if MaxScanTokenSize ≤ goLen seg then ([], some ErrTooLong)
    else (dropCR seg :: (scanTokens (next :: rest)).1, (scanTokens (next :: rest)).2)

/-- The scanner over a body that is read to its end without a read error. -/
def scanLines (body : GoString) : List GoString × Option GoError :=
  scanTokens (splitOn '\n' body)

/-- The lines of the segments of a body: each segment without its final carriage return, the
last one only if it is not empty. -/
def linesOf : List GoString → List GoString
  | [] => []
  | [last] => if last = [] then [] else [dropCR last]
  | seg :: next :: rest => dropCR seg :: linesOf (next :: rest)

/-- The lines of a body, as the specification counts them: the text between the line feeds,
and the text after the last line feed if there is some. -/
def bodyLines (body : GoString) : List GoString := linesOf (splitOn '\n' body)

/-- The response with the given status whose body arrives whole. -/
def bodyResponse (status : Nat) (body : GoString) : Response :=
  { StatusCode := status, lines := (scanLines body).1, scanErr := (scanLines body).2 }

/-- A line of 65536 letters `a`. -/
def longLine : GoString := List.replicate 65536 'a'

/-- A body of two lines, the first one the line of 65536 letters, the second `BAD_DOMAIN`. -/
def longBody : GoString := longLine ++ '\n' :: "BAD_DOMAIN\n".toList

/-- The body of the example `cn.txt`. -/
def cnBody : GoString := "baidu.com\n#comment\nBAD_DOMAIN\n".toList

/-! ## Theorems -/

/-! ### The regular expression and the grammar -/

section Regex
open RegularExpression

theorem alnumChars_isAlphanum : ∀ c ∈ alnumChars, c.isAlphanum = true := by decide

theorem ofNat_mem_alnumChars :
    ∀ n < 128, (Char.ofNat n).isAlphanum = true → Char.ofNat n ∈ alnumChars := by decide

theorem mem_alnumChars (c : Char) : c ∈ alnumChars ↔ c.isAlphanum = true := by
  constructor
  · exact alnumChars_isAlphanum c
  · intro h
    have hlt : c.toNat < 128 := by
      simp only [Char.isAlphanum, Char.isAlpha, Char.isUpper, Char.isLower, Char.isDigit,
        Bool.or_eq_true, Bool.and_eq_true, decide_eq_true_eq, UInt32.le_def, Fin.le_def] at h
      simp only [Char.toNat]
      have : ∀ (x : UInt32), x.toNat = x.val.val := fun _ => rfl
      rw [this]
      rcases h with (⟨_, h⟩ | ⟨_, h⟩) | ⟨_, h⟩ <;> exact Nat.lt_of_le_of_lt h (by decide)
    have := ofNat_mem_alnumChars c.toNat hlt
    rw [Char.ofNat_toNat] at this
    exact this h

theorem mem_charClass (cs : List Char) (x : List Char) :
    x ∈ (charClass cs).matches' ↔ ∃ c ∈ cs, x = [c] := by
  induction cs with
  | nil => simp [charClass]
  | cons d ds ih =>
    simp only [charClass, matches'_add, Language.mem_add, ih, matches'_char,
      List.mem_cons, exists_eq_or_imp]
    rfl

theorem mem_repUpTo_charClass (cs : List Char) (n : Nat) (x : List Char) :
    x ∈ (repUpTo (charClass cs) n).matches' ↔ x.length ≤ n ∧ ∀ c ∈ x, c ∈ cs := by
  induction n generalizing x with
  | zero =>
    simp only [repUpTo, matches'_epsilon, Language.mem_one, Nat.le_zero, List.length_eq_zero]
    constructor
    · rintro rfl; simp
    · exact fun h => h.1
  | succ n ih =>
    simp only [repUpTo, optional, matches'_add, matches'_epsilon, matches'_mul,
      Language.mem_add, Language.mem_one, Language.mem_mul, mem_charClass, ih]
    constructor
    · rintro (rfl | ⟨a, ⟨c, hc, rfl⟩, b, ⟨hb, hb2⟩, rfl⟩)
      · simp
      · refine ⟨by simpa using hb, ?_⟩
        intro d hd
        simp only [List.singleton_append, List.mem_cons] at hd
        rcases hd with rfl | hd
        · exact hc
        · exact hb2 d hd
    · rintro ⟨hlen, hall⟩
      cases x with
      | nil => exact Or.inl rfl
      | cons c rest =>
        refine Or.inr ⟨[c], ⟨c, hall c (List.mem_cons_self _ _), rfl⟩, rest, ⟨?_, ?_⟩, rfl⟩
        · simpa using hlen
        · exact fun d hd => hall d (List.mem_cons_of_mem _ hd)

theorem mem_alnumHyphen (c : Char) : c ∈ alnumChars ++ ['-'] ↔ (c.isAlphanum = true ∨ c = '-') := by
  simp [mem_alnumChars]

theorem mem_labelRegex (x : List Char) : x ∈ labelRegex.matches' ↔ validLabel x := by
  simp only [labelRegex, alnumClass, alnumHyphenClass, optional, matches'_mul, matches'_add,
    matches'_epsilon, Language.mem_mul, Language.mem_add, Language.mem_one, mem_charClass,
    mem_repUpTo_charClass, mem_alnumChars, mem_alnumHyphen, validLabel]
  constructor
  · rintro ⟨a, ⟨c, hc, rfl⟩, b, (rfl | ⟨m, ⟨hm, hm2⟩, e, ⟨d, hd, rfl⟩, rfl⟩), rfl⟩
    · refine ⟨by simp, by simp, ?_, ?_, ?_⟩
      · intro d hd
        simp only [List.append_nil, List.mem_singleton] at hd
        subst hd; exact Or.inl hc
      · simp only [List.append_nil, List.head?_cons, ne_eq, Option.some.injEq]
        rintro rfl; exact absurd hc (by decide)
      · simp only [List.append_nil, List.getLast?_singleton, ne_eq, Option.some.injEq]
        rintro rfl; exact absurd hc (by decide)
    · refine ⟨by simp, by simp; omega, ?_, ?_, ?_⟩
      · intro e he
        simp only [List.singleton_append, List.mem_cons, List.mem_append, List.mem_singleton,
          List.not_mem_nil, or_false] at he
        rcases he with rfl | he | rfl
        · exact Or.inl hc
        · exact hm2 e he
        · exact Or.inl hd
      · simp only [List.singleton_append, List.head?_cons, ne_eq, Option.some.injEq]
        rintro rfl; exact absurd hc (by decide)
      · rw [← List.append_assoc, List.getLast?_append]
        simp only [List.getLast?_singleton, Option.or_some, ne_eq, Option.some.injEq]
        rintro rfl; exact absurd hd (by decide)
  · rintro ⟨h1, h63, hall, hhead, hlast⟩
    cases x with
    | nil => simp at h1
    | cons c rest =>
      have hc : c.isAlphanum = true := by
        rcases hall c (List.mem_cons_self _ _) with h | h
        · exact h
        · subst h; simp at hhead
      refine ⟨[c], ⟨c, hc, rfl⟩, rest, ?_, rfl⟩
      rcases List.eq_nil_or_concat rest with rfl | ⟨m, d, hmd⟩
      · exact Or.inl rfl
      · rw [List.concat_eq_append] at hmd
        subst hmd
        have hd : d.isAlphanum = true := by
          rcases hall d (by simp) with h | h
          · exact h
          · subst h
            exfalso; apply hlast
            rw [← List.cons_append, List.getLast?_append]; simp
        refine Or.inr ⟨m, ⟨?_, ?_⟩, [d], ⟨d, hd, rfl⟩, rfl⟩
        · simp at h63; omega
        · exact fun e he => hall e (by simp [he])

/-- The strings `l₁.l₂. ... lₙ.` built from a list of labels. -/
theorem mem_dotted (y : List Char) :
    y ∈ (labelRegex * RegularExpression.char '.').matches' ↔ ∃ l, validLabel l ∧ y = l ++ ['.'] := by
  simp only [matches'_mul, Language.mem_mul, mem_labelRegex, matches'_char]
  constructor
  · rintro ⟨a, ha, b, hb, rfl⟩
    rw [Set.mem_singleton_iff.mp hb]
    exact ⟨a, ha, rfl⟩
  · rintro ⟨l, hl, rfl⟩
    exact ⟨l, hl, ['.'], rfl, rfl⟩

theorem all_dotted (S : List (List Char)) :
    (∀ y ∈ S, ∃ l, validLabel l ∧ y = l ++ ['.']) ↔
      ∃ ls : List (List Char), (∀ l ∈ ls, validLabel l) ∧ S = ls.map (fun l => l ++ ['.']) := by
  induction S with
  | nil =>
    constructor
    · intro _; exact ⟨[], by simp, rfl⟩
    · intro _ y hy; simp at hy
  | cons y S ih =>
    constructor
    · intro h
      obtain ⟨l, hl, rfl⟩ := h y (List.mem_cons_self _ _)
      obtain ⟨ls, hls, rfl⟩ := ih.mp (fun z hz => h z (List.mem_cons_of_mem _ hz))
      refine ⟨l :: ls, ?_, rfl⟩
      intro m hm
      rcases List.mem_cons.mp hm with rfl | hm
      · exact hl
      · exact hls m hm
    · rintro ⟨ls, hls, hS⟩ z hz
      cases ls with
      | nil => simp at hS
      | cons l ls =>
        simp only [List.map_cons, List.cons.injEq] at hS
        obtain ⟨rfl, rfl⟩ := hS
        rcases List.mem_cons.mp hz with rfl | hz
        · exact ⟨l, hls l (List.mem_cons_self _ _), rfl⟩
        · obtain ⟨m, hm, rfl⟩ := List.mem_map.mp hz
          exact ⟨m, hls m (List.mem_cons_of_mem _ hm), rfl⟩

theorem mem_domainRegex (x : List Char) :
    x ∈ domainRegex.matches' ↔
      ∃ (ls : List (List Char)) (lst : List Char), ls ≠ [] ∧ (∀ l ∈ ls, validLabel l) ∧
        validLabel lst ∧ x = (ls.map (fun l => l ++ ['.'])).flatten ++ lst := by
  unfold domainRegex oneOrMore
  rw [matches'_mul, matches'_mul, matches'_star]
  simp only [Language.mem_mul, Language.mem_kstar, mem_dotted, mem_labelRegex, all_dotted]
  constructor
  · rintro ⟨a, ⟨a1, ⟨l, hl, rfl⟩, a2, ⟨S, rfl, ls, hls, rfl⟩, rfl⟩, b, hb, rfl⟩
    refine ⟨l :: ls, b, by simp, ?_, hb, by simp⟩
    intro m hm
    rcases List.mem_cons.mp hm with rfl | hm
    · exact hl
    · exact hls m hm
  · rintro ⟨ls, lst, hne, hls, hlst, rfl⟩
    cases ls with
    | nil => exact absurd rfl hne
    | cons l ls =>
      refine ⟨_, ⟨l ++ ['.'], ⟨l, hls l (List.mem_cons_self _ _), rfl⟩, _,
        ⟨_, rfl, ls, fun m hm => hls m (List.mem_cons_of_mem _ hm), rfl⟩, rfl⟩, lst, hlst, ?_⟩
      simp

theorem validLabel_dotFree {l : List Char} (h : validLabel l) : '.' ∉ l := by
  intro hmem
  rcases h.2.2.1 '.' hmem with h | h
  · exact absurd h (by decide)
  · exact absurd h (by decide)

theorem splitOn_ne_nil (sep : Char) (s : GoString) : splitOn sep s ≠ [] := by
  cases s with
  | nil => simp [splitOn]
  | cons c cs =>
    simp only [splitOn]
    split
    · simp
    · split <;> simp

theorem splitOn_dotFree (sep : Char) (l : GoString) (h : sep ∉ l) : splitOn sep l = [l] := by
  induction l with
  | nil => rfl
  | cons c cs ih =>
    simp only [List.mem_cons, not_or] at h
    simp only [splitOn, ih h.2]
    rw [if_neg (fun e => h.1 e.symm)]

theorem splitOn_append_sep (sep : Char) (l rest : GoString) (h : sep ∉ l) :
    splitOn sep (l ++ sep :: rest) = l :: splitOn sep rest := by
  induction l with
  | nil => simp [splitOn]
  | cons c cs ih =>
    simp only [List.mem_cons, not_or] at h
    have e : splitOn sep (c :: (cs ++ sep :: rest)) = (c :: cs) :: splitOn sep rest := by
      simp only [splitOn, ih h.2]
      rw [if_neg (fun e => h.1 e.symm)]
    exact e

theorem splitOn_flatten (sep : Char) (ls : List GoString) (lst : GoString)
    (hls : ∀ l ∈ ls, sep ∉ l) (hlst : sep ∉ lst) :
    splitOn sep ((ls.map (fun l => l ++ [sep])).flatten ++ lst) = ls ++ [lst] := by
  induction ls with
  | nil => simpa using splitOn_dotFree sep lst hlst
  | cons l ls ih =>
    simp only [List.map_cons, List.flatten_cons, List.append_assoc, List.singleton_append,
      List.cons_append]
    rw [splitOn_append_sep sep l _ (hls l (List.mem_cons_self _ _)), List.nil_append,
      ih (fun m hm => hls m (List.mem_cons_of_mem _ hm))]

theorem splitOn_spec (sep : Char) (s : GoString) :
    ∃ (ls : List GoString) (lst : GoString), splitOn sep s = ls ++ [lst] ∧
      s = (ls.map (fun l => l ++ [sep])).flatten ++ lst := by
  induction s with
  | nil => exact ⟨[], [], rfl, rfl⟩
  | cons c cs ih =>
    obtain ⟨ls, lst, h1, h2⟩ := ih
    by_cases hc : c = sep
    · refine ⟨[] :: ls, lst, ?_, ?_⟩
      · simp [splitOn, hc, h1]
      · simp [hc, ← h2]
    · cases ls with
      | nil =>
        refine ⟨[], c :: lst, ?_, ?_⟩
        · simp only [splitOn, if_neg hc, h1]; rfl
        · simpa using h2
      | cons l ls =>
        refine ⟨(c :: l) :: ls, lst, ?_, ?_⟩
        · simp only [splitOn, if_neg hc, h1]; rfl
        · simp only [List.map_cons, List.flatten_cons, List.cons_append] at h2 ⊢
          rw [← h2]

theorem utf8Size_pos (c : Char) : 1 ≤ c.utf8Size := by
  unfold Char.utf8Size
  dsimp only
  split_ifs <;> decide

theorem length_le_goLen (s : GoString) : s.length ≤ goLen s := by
  induction s with
  | nil => simp [goLen]
  | cons c cs ih =>
    have := utf8Size_pos c
    simp only [goLen, List.map_cons, List.sum_cons, List.length_cons] at ih ⊢
    omega

theorem goLen_eq_length (s : GoString) (h : ∀ c ∈ s, c.utf8Size = 1) : goLen s = s.length := by
  induction s with
  | nil => simp [goLen]
  | cons c cs ih =>
    have hc := h c (List.mem_cons_self _ _)
    have := ih (fun d hd => h d (List.mem_cons_of_mem _ hd))
    simp only [goLen, List.map_cons, List.sum_cons, List.length_cons] at this ⊢
    omega

theorem utf8Size_domainChars : ∀ c ∈ alnumChars ++ ['-', '.'], c.utf8Size = 1 := by decide

theorem utf8Size_of_validLabel {l : GoString} (h : validLabel l) : ∀ c ∈ l, c.utf8Size = 1 := by
  intro c hc
  apply utf8Size_domainChars
  rcases h.2.2.1 c hc with h | h
  · exact List.mem_append_left _ ((mem_alnumChars c).mpr h)
  · subst h; simp

/-- The regular expression matches exactly the strings of two or more valid labels. -/
theorem domainRegex_rmatch_iff (s : GoString) :
    domainRegex.rmatch s = true ↔
      2 ≤ (splitOn '.' s).length ∧ ∀ l ∈ splitOn '.' s, validLabel l := by
  rw [rmatch_iff_matches', mem_domainRegex]
  constructor
  · rintro ⟨ls, lst, hne, hls, hlst, rfl⟩
    rw [splitOn_flatten '.' ls lst (fun l hl => validLabel_dotFree (hls l hl))
      (validLabel_dotFree hlst)]
    constructor
    · have : 0 < ls.length := List.length_pos.mpr hne
      simp only [List.length_append, List.length_singleton]
      omega
    · intro l hl
      rcases List.mem_append.mp hl with hl | hl
      · exact hls l hl
      · rw [List.mem_singleton.mp hl]; exact hlst
  · rintro ⟨h2, hall⟩
    obtain ⟨ls, lst, h1, hs⟩ := splitOn_spec '.' s
    rw [h1] at h2 hall
    refine ⟨ls, lst, ?_, fun l hl => hall l (List.mem_append_left _ hl),
      hall lst (List.mem_append_right _ (List.mem_singleton_self _)), hs⟩
    rintro rfl
    simp at h2

/-- Every rune of a string matched by the regular expression takes one byte. -/
theorem utf8Size_of_labels (s : GoString) (hall : ∀ l ∈ splitOn '.' s, validLabel l) :
    ∀ c ∈ s, c.utf8Size = 1 := by
  obtain ⟨ls, lst, h1, hs⟩ := splitOn_spec '.' s
  rw [h1] at hall
  intro c hc
  rw [hs] at hc
  simp only [List.mem_append, List.mem_flatten, List.mem_map] at hc
  rcases hc with ⟨y, ⟨l, hl, rfl⟩, hc⟩ | hc
  · rcases List.mem_append.mp hc with hc | hc
    · exact utf8Size_of_validLabel (hall l (List.mem_append_left _ hl)) c hc
    · rw [List.mem_singleton.mp hc]; decide
  · exact utf8Size_of_validLabel
      (hall lst (List.mem_append_right _ (List.mem_singleton_self _))) c hc

/-- The characterisation of `isValidDomain` by labels. -/
theorem isValidDomain_iff (s : GoString) :
    isValidDomain s = true ↔
      s.length ≤ 253 ∧ 2 ≤ (splitOn '.' s).length ∧ ∀ l ∈ splitOn '.' s, validLabel l := by
  unfold isValidDomain
  constructor
  · intro h
    split at h
    · exact absurd h (by simp)
    · rename_i hlen
      have := length_le_goLen s
      exact ⟨by omega, (domainRegex_rmatch_iff s).mp h⟩
  · rintro ⟨hlen, h2, hall⟩
    have hg : goLen s = s.length := goLen_eq_length s (utf8Size_of_labels s hall)
    rw [if_neg (by omega)]
    exact (domainRegex_rmatch_iff s).mpr ⟨h2, hall⟩

/-- C1 (as stated, refuted): the single label `com` meets the grammar of the claim, one or
more labels, and `isValidDomain` rejects it. -/
theorem isValidDomain_single_label_rejected :
    ¬ (isValidDomain "com".toList = true ↔ specValidDomain "com".toList) := by
  intro h
  have hs : specValidDomain "com".toList := by decide
  have hv := (isValidDomain_iff _).mp (h.mpr hs)
  exact absurd hv.2.1 (by decide)

/-- C1 (amended): `isValidDomain s` is true exactly when `s` is at most 253 characters long and
consists of two or more labels separated by `.`, each label 1 to 63 characters long, made of
ASCII letters, digits and `-`, and neither beginning nor ending with `-`. -/
theorem isValidDomain_iff_two_or_more_labels (s : GoString) :
    isValidDomain s = true ↔
      s.length ≤ 253 ∧ 2 ≤ (splitOn '.' s).length ∧ ∀ l ∈ splitOn '.' s, validLabel l := by
  unfold isValidDomain
  constructor
  · intro h
    by_cases hlen : goLen s > 253
    · rw [if_pos hlen] at h
      exact absurd h (by simp)
    · rw [if_neg hlen] at h
      have hle := length_le_goLen s
      exact ⟨by omega, (domainRegex_rmatch_iff s).mp h⟩
  · rintro ⟨hlen, h2, hall⟩
    have hg : goLen s = s.length := goLen_eq_length s (utf8Size_of_labels s hall)
    rw [if_neg (by omega)]
    exact (domainRegex_rmatch_iff s).mpr ⟨h2, hall⟩

end Regex

/-! ### The loop of `downloadList` -/

/-- The loop of `downloadList` from any state: the domains and the warnings of the
specification are appended, the numbering of the lines going on from the state. -/
theorem foldl_scanStep (U : CaseMapping) (lines : List GoString) (st : ScanState) :
    lines.foldl (scanStep U) st =
      { domains := st.domains ++ specDomains U lines,
        lineNumber := st.lineNumber + lines.length,
        warnings := st.warnings ++
          ((lines.enumFrom (st.lineNumber + 1)).filter (fun p =>
            !isSkipped (trimSpace p.2) && !isValidDomain (toLower U (trimSpace p.2)))).map
              (fun p => (p.1, trimSpace p.2)) } := by
  induction lines generalizing st with
  | nil => simp [specDomains]
  | cons text rest ih =>
    rw [List.foldl_cons, ih]
    unfold scanStep
    by_cases hskip : isSkipped (trimSpace text) = true
    · simp [specDomains, hskip, List.enumFrom_cons, Nat.add_assoc, Nat.add_comm 1]
    · by_cases hval : isValidDomain (toLower U (trimSpace text)) = true
      · simp [specDomains, hskip, hval, List.enumFrom_cons, Nat.add_assoc, Nat.add_comm 1]
      · simp [specDomains, hskip, hval, List.enumFrom_cons, Nat.add_assoc, Nat.add_comm 1]

theorem scanLoop_eq (U : CaseMapping) (lines : List GoString) :
    scanLoop U lines =
      { domains := specDomains U lines, lineNumber := lines.length,
        warnings := specWarnings U lines } := by
  unfold scanLoop
  rw [foldl_scanStep]
  simp [specWarnings]

theorem downloadList_ok (U : CaseMapping) (httpGet : GoString → Except GoError Response)
    (url : GoString) (resp : Response) (hget : httpGet url = .ok resp)
    (hstatus : resp.StatusCode = StatusOK) :
    (downloadList U httpGet url).domains = specDomains U resp.lines ∧
      (downloadList U httpGet url).warnings = specWarnings U resp.lines ∧
      ((downloadList U httpGet url).err = none ↔ resp.scanErr = none) := by
  unfold downloadList
  rw [hget]
  simp only [hstatus, ne_eq, not_true_eq_false, if_false, scanLoop_eq]
  cases resp.scanErr <;> simp

theorem downloadList_domains_sub (U : CaseMapping)
    (httpGet : GoString → Except GoError Response) (url : GoString) :
    ∀ d ∈ (downloadList U httpGet url).domains, ∃ line, d = toLower U line ∧
      isValidDomain d = true := by
  intro d hd
  unfold downloadList at hd
  cases hget : httpGet url with
  | error e =>
    rw [hget] at hd
    simp at hd
  | ok resp =>
    rw [hget] at hd
    by_cases hs : resp.StatusCode = StatusOK
    · simp only [hs, ne_eq, not_true_eq_false, if_false, scanLoop_eq] at hd
      have hd2 : d ∈ specDomains U resp.lines := by
        cases hse : resp.scanErr with
        | none => rw [hse] at hd; exact hd
        | some e => rw [hse] at hd; exact hd
      simp only [specDomains, List.mem_filter, List.mem_map] at hd2
      obtain ⟨⟨l, _, rfl⟩, hv⟩ := hd2
      exact ⟨l, rfl, hv⟩
    · simp only [ne_eq, hs, not_false_eq_true, if_true] at hd
      simp at hd

theorem domainChars_ascii : ∀ c ∈ alnumChars ++ ['-', '.'], c.toNat < 128 := by decide

theorem isValidDomain_chars {s : GoString} (h : isValidDomain s = true) :
    ∀ c ∈ s, c ∈ alnumChars ++ ['-', '.'] := by
  have hall := ((isValidDomain_iff s).mp h).2.2
  obtain ⟨ls, lst, h1, hs⟩ := splitOn_spec '.' s
  rw [h1] at hall
  have hlab : ∀ l, validLabel l → ∀ c ∈ l, c ∈ alnumChars ++ ['-', '.'] := by
    intro l hl c hc
    rcases hl.2.2.1 c hc with h | h
    · exact List.mem_append_left _ ((mem_alnumChars c).mpr h)
    · subst h; simp
  intro c hc
  rw [hs] at hc
  simp only [List.mem_append, List.mem_flatten, List.mem_map] at hc
  rcases hc with ⟨y, ⟨l, hl, rfl⟩, hc⟩ | hc
  · rcases List.mem_append.mp hc with hc | hc
    · exact hlab l (hall l (List.mem_append_left _ hl)) c hc
    · rw [List.mem_singleton.mp hc]; simp
  · exact hlab lst (hall lst (List.mem_append_right _ (List.mem_singleton_self _))) c hc

theorem toLower_of_not_isUpper (c : Char) (h : c.isUpper = false) : c.toLower = c := by
  unfold Char.toLower
  dsimp only
  split_ifs with hc
  · exfalso
    simp only [Char.isUpper, Bool.and_eq_false_imp, decide_eq_true_eq,
      decide_eq_false_iff_not] at h
    have a1 : (65 : UInt32) ≤ c.val := by
      show (65 : UInt32).toNat ≤ c.val.toNat
      exact hc.1
    have a2 : c.val ≤ (90 : UInt32) := by
      show c.val.toNat ≤ (90 : UInt32).toNat
      exact hc.2
    exact h a1 a2
  · rfl

/-- A valid domain obtained by `strings.ToLower` is left unchanged by `strings.ToLower`. -/
theorem toLower_fixed (U : CaseMapping)
    (hascii : ∀ c : Char, c.toNat < 128 → U.lower c = c.toLower)
    (hupper : ∀ c : Char, (U.lower c).isUpper = false)
    (line : GoString) (hvalid : isValidDomain (toLower U line) = true) :
    toLower U (toLower U line) = toLower U line := by
  have hch := isValidDomain_chars hvalid
  unfold toLower at hch ⊢
  rw [List.map_map]
  apply List.map_congr_left
  intro c hc
  have hmem := hch (U.lower c) (List.mem_map_of_mem _ hc)
  simp only [Function.comp_apply]
  rw [hascii _ (domainChars_ascii _ hmem)]
  exact toLower_of_not_isUpper _ (hupper c)

/-! ### The loops of `main` -/

theorem foldl_append_singleton {α β : Type} (f : α → β) (l : List α) (init : List β) :
    l.foldl (fun acc x => acc ++ [f x]) init = init ++ l.map f := by
  induction l generalizing init with
  | nil => simp
  | cons a l ih => simp [ih]

theorem encodeDomains_eq (domains : List GoString) :
    encodeDomains domains = domains.map (fun d => { Type_ := .RootDomain, Value := d }) := by
  unfold encodeDomains
  rw [foldl_append_singleton (fun d => ({ Type_ := .RootDomain, Value := d } : Domain))]
  simp

theorem encode_entry (ranged : List GoString) (m : GoMap) :
    (encode ranged m).Entry = (sortStrings ranged).map (fun label =>
      { CountryCode := label, Domain := encodeDomains (m.get label) }) := by
  unfold encode
  simp only
  rw [foldl_append_singleton (fun label =>
    ({ CountryCode := label, Domain := encodeDomains (m.get label) } : GeoSite))]
  simp

theorem sortStrings_perm (l : List GoString) : (sortStrings l).Perm l :=
  List.perm_insertionSort _ l

theorem sortStrings_sorted (l : List GoString) : (sortStrings l).Sorted (· ≤ ·) :=
  List.sorted_insertionSort _ l

theorem sortStrings_congr {l₁ l₂ : List GoString} (h : l₁.Perm l₂) :
    sortStrings l₁ = sortStrings l₂ :=
  List.eq_of_perm_of_sorted
    (((sortStrings_perm l₁).trans h).trans (sortStrings_perm l₂).symm)
    (sortStrings_sorted l₁) (sortStrings_sorted l₂)

/-- The bindings and the errors that the loop over the channel adds to a state. -/
theorem foldl_collectStep (arrived : List DownloadResult) (st : CollectState) :
    arrived.foldl collectStep st =
      { downloadedSites :=
          ((arrived.filter (fun r => r.Err.isNone)).map
            (fun r => (r.Prefix, r.Domains))).reverse ++ st.downloadedSites,
        processingErrors := st.processingErrors ++
          arrived.filterMap (fun r => r.Err.map (fun e => GoError.downloadFailed r.Prefix e)) } := by
  induction arrived generalizing st with
  | nil => simp
  | cons r rest ih =>
    rw [List.foldl_cons, ih]
    unfold collectStep
    cases h : r.Err with
    | none => simp [h, GoMap.set]
    | some e => simp [h]

theorem collect_eq (errs : List GoError) (arrived : List DownloadResult) :
    collect errs arrived =
      { downloadedSites :=
          ((arrived.filter (fun r => r.Err.isNone)).map (fun r => (r.Prefix, r.Domains))).reverse,
        processingErrors := errs ++
          arrived.filterMap (fun r => r.Err.map (fun e => GoError.downloadFailed r.Prefix e)) } := by
  unfold collect
  rw [foldl_collectStep]
  simp

theorem mem_collect_sites (errs : List GoError) (arrived : List DownloadResult)
    (k : GoString) (v : List GoString) :
    (k, v) ∈ (collect errs arrived).downloadedSites ↔
      ∃ r ∈ arrived, r.Err = none ∧ r.Prefix = k ∧ r.Domains = v := by
  rw [collect_eq]
  simp only [List.mem_reverse, List.mem_map, List.mem_filter, Option.isNone_iff_eq_none,
    Prod.mk.injEq]
  constructor
  · rintro ⟨r, ⟨hr, he⟩, hk, hv⟩
    exact ⟨r, hr, he, hk, hv⟩
  · rintro ⟨r, hr, he, hk, hv⟩
    exact ⟨r, ⟨hr, he⟩, hk, hv⟩

theorem mem_keys (m : GoMap) (k : GoString) : k ∈ m.keys ↔ ∃ v, (k, v) ∈ m := by
  unfold GoMap.keys
  rw [List.mem_dedup, List.mem_map]
  constructor
  · rintro ⟨⟨k2, v⟩, h, rfl⟩
    exact ⟨v, h⟩
  · rintro ⟨v, h⟩
    exact ⟨(k, v), h, rfl⟩

theorem keys_nodup (m : GoMap) : m.keys.Nodup := List.nodup_dedup _

theorem lookup_mem (m : GoMap) (k : GoString) (v : List GoString)
    (h : m.lookup k = some v) : (k, v) ∈ m := by
  induction m with
  | nil => simp at h
  | cons p m ih =>
    obtain ⟨k2, v2⟩ := p
    rw [List.lookup_cons] at h
    by_cases hk : k = k2
    · subst hk
      simp only [beq_self_eq_true, Option.some.injEq] at h
      subst h
      exact List.mem_cons_self _ _
    · have hb : (k == k2) = false := by simpa using hk
      simp only [hb] at h
      exact List.mem_cons_of_mem _ (ih h)

theorem lookup_isSome_of_mem (m : GoMap) (k : GoString) (v : List GoString)
    (h : (k, v) ∈ m) : ∃ w, m.lookup k = some w := by
  induction m with
  | nil => simp at h
  | cons p m ih =>
    obtain ⟨k2, v2⟩ := p
    rw [List.lookup_cons]
    by_cases hk : k = k2
    · subst hk
      exact ⟨v2, by simp⟩
    · have hb : (k == k2) = false := by simpa using hk
      simp only [hb]
      rcases List.mem_cons.mp h with h | h
      · exact absurd (Prod.mk.inj h).1 hk
      · exact ih h

/-- When all the bindings of a key carry one value, the map gives this value. -/
theorem get_of_agree (m : GoMap) (k : GoString) (v : List GoString) (h : (k, v) ∈ m)
    (hagree : ∀ w, (k, w) ∈ m → w = v) : m.get k = v := by
  obtain ⟨w, hw⟩ := lookup_isSome_of_mem m k v h
  unfold GoMap.get
  rw [hw]
  exact hagree w (lookup_mem m k w hw)

theorem mem_get (m : GoMap) (k : GoString) (d : GoString) (h : d ∈ m.get k) :
    ∃ v, (k, v) ∈ m ∧ d ∈ v := by
  unfold GoMap.get at h
  cases hl : m.lookup k with
  | none => simp [hl] at h
  | some v =>
    rw [hl] at h
    exact ⟨v, lookup_mem m k v hl, h⟩

/-- The items and the errors that the loop over the configuration file adds to a state. -/
theorem foldl_configStep (U : CaseMapping) (lines : List GoString) (st : ConfigState) :
    lines.foldl (configStep U) st =
      { launched := st.launched ++
          (parsedLines lines).filterMap (fun line => (parseURLLine U line).toOption),
        processingErrors := st.processingErrors ++
          (parsedLines lines).filterMap (parseError U) } := by
  induction lines generalizing st with
  | nil => simp [parsedLines]
  | cons text rest ih =>
    rw [List.foldl_cons, ih]
    unfold configStep
    by_cases hskip : (trimSpace text == [] || hasPrefix (trimSpace text) "#".toList) = true
    · simp only [hskip, if_true]
      have hp : parsedLines (text :: rest) = parsedLines rest := by
        simp only [parsedLines, List.map_cons]
        rw [List.filter_cons_of_neg]
        rw [hskip]; simp
      rw [hp]
    · simp only [hskip]
      have hp : parsedLines (text :: rest) = trimSpace text :: parsedLines rest := by
        simp only [parsedLines, List.map_cons]
        rw [List.filter_cons_of_pos]
        rw [Bool.not_eq_true] at hskip
        rw [hskip]; rfl
      rw [hp]
      cases h : parseURLLine U (trimSpace text) with
      | error e => simp [h, parseError, Except.toOption]
      | ok item => simp [h, parseError, Except.toOption]

theorem readConfig_eq (U : CaseMapping) (lines : List GoString) :
    readConfig U lines =
      { launched := (parsedLines lines).filterMap (fun line => (parseURLLine U line).toOption),
        processingErrors := (parsedLines lines).filterMap (parseError U) } := by
  unfold readConfig
  rw [foldl_configStep]
  simp

theorem outcomes_length (U : CaseMapping) (http : Nat → GoString → Except GoError Response)
    (launched : List URLItem) : (outcomes U http launched).length = launched.length := by
  simp [outcomes]

theorem run_eq (U : CaseMapping) (lines : List GoString) (arrived : List DownloadResult)
    (ranged : List GoString) :
    run U lines arrived ranged =
      if ((parsedLines lines).filterMap (parseError U) ++
          arrived.filterMap downloadError).length > 0 then
        .aborted ((parsedLines lines).filterMap (parseError U) ++
          arrived.filterMap downloadError)
      else .output (encode ranged (collect [] arrived).downloadedSites) := by
  unfold run finish
  simp only [readConfig_eq, collect_eq]
  rfl

/-! ### Order of arrival -/

/-- C2 (as stated, refuted): two outcomes without error that share the label `CN` arrive in one
order or the other; the encoded lists differ, the later outcome winning. -/
theorem encode_depends_on_arrival_order :
    sameLabelOutcomes.reverse.Perm sameLabelOutcomes ∧
      encode (collect [] sameLabelOutcomes).downloadedSites.keys
          (collect [] sameLabelOutcomes).downloadedSites ≠
        encode (collect [] sameLabelOutcomes.reverse).downloadedSites.keys
          (collect [] sameLabelOutcomes.reverse).downloadedSites :=
  ⟨List.reverse_perm _, by decide⟩

theorem collect_get_congr (errs : List GoError) (l₁ l₂ : List DownloadResult)
    (hperm : l₁.Perm l₂)
    (hagree : ∀ r ∈ l₁, ∀ s ∈ l₁, r.Err = none → s.Err = none → r.Prefix = s.Prefix →
      r.Domains = s.Domains)
    (k : GoString) (hk : k ∈ (collect errs l₁).downloadedSites.keys) :
    (collect errs l₁).downloadedSites.get k = (collect errs l₂).downloadedSites.get k := by
  obtain ⟨v, hv⟩ := (mem_keys _ k).mp hk
  obtain ⟨r, hr, he, hp, hd⟩ := (mem_collect_sites errs l₁ k v).mp hv
  have h1 : (collect errs l₁).downloadedSites.get k = v := by
    apply get_of_agree _ k v hv
    intro w hw
    obtain ⟨s, hs, hse, hsp, hsd⟩ := (mem_collect_sites errs l₁ k w).mp hw
    rw [← hsd, ← hd]
    exact hagree s hs r hr hse he (hsp.trans hp.symm)
  have h2 : (collect errs l₂).downloadedSites.get k = v := by
    apply get_of_agree _ k v
    · exact (mem_collect_sites errs l₂ k v).mpr ⟨r, hperm.mem_iff.mp hr, he, hp, hd⟩
    · intro w hw
      obtain ⟨s, hs, hse, hsp, hsd⟩ := (mem_collect_sites errs l₂ k w).mp hw
      rw [← hsd, ← hd]
      exact hagree s (hperm.mem_iff.mpr hs) r hr hse he (hsp.trans hp.symm)
  rw [h1, h2]

theorem collect_keys_perm (errs : List GoError) (l₁ l₂ : List DownloadResult)
    (hperm : l₁.Perm l₂) :
    (collect errs l₁).downloadedSites.keys.Perm (collect errs l₂).downloadedSites.keys := by
  rw [List.perm_ext_iff_of_nodup (keys_nodup _) (keys_nodup _)]
  intro k
  simp only [mem_keys, mem_collect_sites]
  constructor
  · rintro ⟨v, r, hr, h⟩
    exact ⟨v, r, hperm.mem_iff.mp hr, h⟩
  · rintro ⟨v, r, hr, h⟩
    exact ⟨v, r, hperm.mem_iff.mpr hr, h⟩

/-- C2 (amended): when the outcomes without error that share a label carry the same domains (in
particular when no two of them share a label), the encoded list is the same for every order of
arrival of the outcomes and every order in which the keys of the map are ranged over. -/
theorem encode_arrival_order_independent (errs : List GoError) (l₁ l₂ : List DownloadResult)
    (ranged₁ ranged₂ : List GoString) (hperm : l₁.Perm l₂)
    (hagree : ∀ r ∈ l₁, ∀ s ∈ l₁, r.Err = none → s.Err = none → r.Prefix = s.Prefix →
      r.Domains = s.Domains)
    (h₁ : Ranged (collect errs l₁).downloadedSites ranged₁)
    (h₂ : Ranged (collect errs l₂).downloadedSites ranged₂) :
    encode ranged₁ (collect errs l₁).downloadedSites =
      encode ranged₂ (collect errs l₂).downloadedSites := by
  have hr : ranged₁.Perm ranged₂ :=
    (h₁.trans (collect_keys_perm errs l₁ l₂ hperm)).trans h₂.symm
  have hentry : (encode ranged₁ (collect errs l₁).downloadedSites).Entry =
      (encode ranged₂ (collect errs l₂).downloadedSites).Entry := by
    rw [encode_entry, encode_entry, sortStrings_congr hr]
    apply List.map_congr_left
    intro k hk
    have hk1 : k ∈ (collect errs l₁).downloadedSites.keys :=
      h₁.mem_iff.mp (hr.mem_iff.mpr ((sortStrings_perm ranged₂).mem_iff.mp hk))
    rw [collect_get_congr errs l₁ l₂ hperm hagree k hk1]
  cases hx : encode ranged₁ (collect errs l₁).downloadedSites
  cases hy : encode ranged₂ (collect errs l₂).downloadedSites
  rw [hx, hy] at hentry
  simp only at hentry
  rw [hentry]

/-- C2, an instance: the outcomes of the two sources `CN` and `US` in both orders of arrival. -/
theorem encode_arrival_order_independent_witness :
    encode ["CN".toList, "US".toList]
        (collect [] (outcomes asciiCase exampleHttp
          (readConfig asciiCase twoSources).launched)).downloadedSites =
      encode ["US".toList, "CN".toList]
        (collect [] (outcomes asciiCase exampleHttp
          (readConfig asciiCase twoSources).launched).reverse).downloadedSites :=
  encode_arrival_order_independent [] _ _ _ _ (List.reverse_perm _).symm (by decide)
    (by unfold Ranged; decide) (by unfold Ranged; decide)

/-! ### Errors of the batch -/

/-- C3 (as stated, refuted): the configuration has one malformed line and one source whose
fetch succeeds; the run does not produce a database, it ends with the panic that reports the
error of the malformed line. -/
theorem run_malformed_line_no_output :
    (∃ line ∈ parsedLines malformedConfig, ∃ err, parseURLLine asciiCase line = .error err) ∧
      (∀ r ∈ outcomes asciiCase exampleHttp (readConfig asciiCase malformedConfig).launched,
        r.Err = none) ∧
      run asciiCase malformedConfig
          (outcomes asciiCase exampleHttp (readConfig asciiCase malformedConfig).launched)
          ["CN".toList] =
        .aborted [.parseFailed (.badFormat "bad".toList)] := by
  refine ⟨⟨"bad".toList, by decide, .badFormat "bad".toList, rfl⟩, by decide, by decide⟩

/-- C3 (amended): when a line of the configuration that is neither blank nor a `#` line is
rejected by `parseURLLine`, the malformed lines are skipped and the reading goes on, so that the
sources fetched are those of all the well-formed lines, one outcome each; after the outcomes are
collected the run ends with the panic that reports the recorded errors, the error of the
rejected line among them, and produces no database. -/
theorem run_malformed_line_aborts (U : CaseMapping)
    (http : Nat → GoString → Except GoError Response) (lines : List GoString)
    (arrived : List DownloadResult) (ranged : List GoString)
    (line : GoString) (err : GoError) (hline : line ∈ parsedLines lines)
    (hrej : parseURLLine U line = .error err) (harr : Arrival U http lines arrived) :
    (readConfig U lines).launched =
        (parsedLines lines).filterMap (fun l => (parseURLLine U l).toOption) ∧
      arrived.length = (readConfig U lines).launched.length ∧
      ∃ errors, run U lines arrived ranged = .aborted errors ∧
        GoError.parseFailed err ∈ errors := by
  have hmem : GoError.parseFailed err ∈ (parsedLines lines).filterMap (parseError U) := by
    rw [List.mem_filterMap]
    exact ⟨line, hline, by simp [parseError, hrej]⟩
  refine ⟨by rw [readConfig_eq], ?_, ?_⟩
  · rw [harr.length_eq, outcomes_length]
  · refine ⟨(parsedLines lines).filterMap (parseError U) ++ arrived.filterMap downloadError,
      ?_, List.mem_append_left _ hmem⟩
    rw [run_eq, if_pos]
    exact List.length_pos_of_mem (List.mem_append_left _ hmem)

/-- C3, an instance: the configuration of one malformed line and one source. -/
theorem run_malformed_line_aborts_witness :
    (readConfig asciiCase malformedConfig).launched =
        (parsedLines malformedConfig).filterMap
          (fun l => (parseURLLine asciiCase l).toOption) ∧
      (outcomes asciiCase exampleHttp (readConfig asciiCase malformedConfig).launched).length =
        (readConfig asciiCase malformedConfig).launched.length ∧
      ∃ errors, run asciiCase malformedConfig
          (outcomes asciiCase exampleHttp (readConfig asciiCase malformedConfig).launched)
          ["CN".toList] = .aborted errors ∧
        GoError.parseFailed (.badFormat "bad".toList) ∈ errors :=
  run_malformed_line_aborts asciiCase exampleHttp malformedConfig _ ["CN".toList]
    "bad".toList (.badFormat "bad".toList) (by decide) rfl (List.Perm.refl _)

/-- C4: when the fetch of at least one source returns an error, the sources started are still
those of all the well-formed lines and there is one outcome for each, the outcome of its own
fetch; the run, after it has gone through all the outcomes that arrived, ends with the panic
that reports the recorded errors, one for each failed fetch, and produces no database. -/
theorem run_fetch_error_aborts (U : CaseMapping)
    (http : Nat → GoString → Except GoError Response) (lines : List GoString)
    (arrived : List DownloadResult) (ranged : List GoString)
    (harr : Arrival U http lines arrived)
    (hfail : ∃ r ∈ outcomes U http (readConfig U lines).launched, r.Err ≠ none) :
    (readConfig U lines).launched =
        (parsedLines lines).filterMap (fun l => (parseURLLine U l).toOption) ∧
      arrived.length = (readConfig U lines).launched.length ∧
      (∀ i, ∀ h : i < (readConfig U lines).launched.length,
        processURL U (http i) ((readConfig U lines).launched.get ⟨i, h⟩) ∈ arrived) ∧
      run U lines arrived ranged =
        .aborted ((readConfig U lines).processingErrors ++ arrived.filterMap downloadError) ∧
      (∀ r ∈ arrived, ∀ e, r.Err = some e →
        GoError.downloadFailed r.Prefix e ∈
          (readConfig U lines).processingErrors ++ arrived.filterMap downloadError) ∧
      ∀ out, run U lines arrived ranged ≠ .output out := by
  obtain ⟨r, hr, hre⟩ := hfail
  have hr2 : r ∈ arrived := harr.mem_iff.mpr hr
  obtain ⟨e, he⟩ := Option.ne_none_iff_exists'.mp hre
  have hmemAll : ∀ r ∈ arrived, ∀ e, r.Err = some e →
      GoError.downloadFailed r.Prefix e ∈
        (readConfig U lines).processingErrors ++ arrived.filterMap downloadError := by
    intro s hs e2 he2
    apply List.mem_append_right
    rw [List.mem_filterMap]
    exact ⟨s, hs, by simp [downloadError, he2]⟩
  have hrun : run U lines arrived ranged =
      .aborted ((readConfig U lines).processingErrors ++ arrived.filterMap downloadError) := by
    have hpos := List.length_pos_of_mem (hmemAll r hr2 e he)
    rw [readConfig_eq] at hpos ⊢
    rw [run_eq, if_pos hpos]
  refine ⟨by rw [readConfig_eq], by rw [harr.length_eq, outcomes_length], ?_, hrun, hmemAll, ?_⟩
  · intro i h
    apply harr.mem_iff.mpr
    unfold outcomes
    rw [List.mem_map]
    refine ⟨(i, (readConfig U lines).launched.get ⟨i, h⟩), ?_, rfl⟩
    rw [List.mk_mem_enum_iff_getElem?]
    simp [List.getElem?_eq_getElem h]
  · intro out hout
    rw [hrun] at hout
    exact RunResult.noConfusion hout

/-- C4, an instance: two sources, the second of which answers with status 404. -/
theorem run_fetch_error_aborts_witness :
    (readConfig asciiCase twoSources).launched =
        (parsedLines twoSources).filterMap (fun l => (parseURLLine asciiCase l).toOption) ∧
      (outcomes asciiCase failingHttp (readConfig asciiCase twoSources).launched).length =
        (readConfig asciiCase twoSources).launched.length ∧
      (∀ i, ∀ h : i < (readConfig asciiCase twoSources).launched.length,
        processURL asciiCase (failingHttp i)
            ((readConfig asciiCase twoSources).launched.get ⟨i, h⟩) ∈
          outcomes asciiCase failingHttp (readConfig asciiCase twoSources).launched) ∧
      run asciiCase twoSources
          (outcomes asciiCase failingHttp (readConfig asciiCase twoSources).launched)
          ["CN".toList] =
        .aborted ((readConfig asciiCase twoSources).processingErrors ++
          (outcomes asciiCase failingHttp
            (readConfig asciiCase twoSources).launched).filterMap downloadError) ∧
      (∀ r ∈ outcomes asciiCase failingHttp (readConfig asciiCase twoSources).launched,
        ∀ e, r.Err = some e →
          GoError.downloadFailed r.Prefix e ∈
            (readConfig asciiCase twoSources).processingErrors ++
              (outcomes asciiCase failingHttp
                (readConfig asciiCase twoSources).launched).filterMap downloadError) ∧
      ∀ out, run asciiCase twoSources
          (outcomes asciiCase failingHttp (readConfig asciiCase twoSources).launched)
          ["CN".toList] ≠ .output out :=
  run_fetch_error_aborts asciiCase failingHttp twoSources _ ["CN".toList] (List.Perm.refl _)
    ⟨{ Prefix := "US".toList, Domains := [],
       Err := some (.badStatus "http://x/us.txt".toList 404) }, by decide, by decide⟩

/-! ### The encoded list -/

/-- C5 (as stated, refuted): the entry encoded for a domain of the map is not tagged `Full`,
the type of a match of the whole domain. -/
theorem encode_entry_not_full :
    ∃ g ∈ (encode exampleSites.keys exampleSites).Entry, ∃ e ∈ g.Domain,
      e.Type_ ≠ Domain_Type.Full := by
  decide

/-- C5 (amended): every entry of the encoded list is tagged `RootDomain`, the type of a domain
together with its subdomains; no entry is tagged `Plain`, `Regex` or `Full`. -/
theorem encode_entries_rootDomain (ranged : List GoString) (m : GoMap) :
    ∀ g ∈ (encode ranged m).Entry, ∀ e ∈ g.Domain,
      e.Type_ = Domain_Type.RootDomain ∧ e.Type_ ≠ Domain_Type.Plain ∧
        e.Type_ ≠ Domain_Type.Regex ∧ e.Type_ ≠ Domain_Type.Full := by
  intro g hg e he
  rw [encode_entry, List.mem_map] at hg
  obtain ⟨k, _, rfl⟩ := hg
  rw [encodeDomains_eq, List.mem_map] at he
  obtain ⟨d, _, rfl⟩ := he
  exact ⟨rfl, fun h => Domain_Type.noConfusion h, fun h => Domain_Type.noConfusion h,
    fun h => Domain_Type.noConfusion h⟩

/-- C5, an instance: the entry of `baidu.com` in the group `CN` of a map of two labels. -/
theorem encode_entries_rootDomain_witness :
    (({ Type_ := .RootDomain, Value := "baidu.com".toList } : Domain).Type_ =
        Domain_Type.RootDomain) ∧
      ({ Type_ := .RootDomain, Value := "baidu.com".toList } : Domain).Type_ ≠
        Domain_Type.Plain ∧
      ({ Type_ := .RootDomain, Value := "baidu.com".toList } : Domain).Type_ ≠
        Domain_Type.Regex ∧
      ({ Type_ := .RootDomain, Value := "baidu.com".toList } : Domain).Type_ ≠
        Domain_Type.Full :=
  encode_entries_rootDomain exampleSites.keys exampleSites
    { CountryCode := "CN".toList,
      Domain := [{ Type_ := .RootDomain, Value := "baidu.com".toList },
                 { Type_ := .RootDomain, Value := "qq.com".toList }] }
    (by decide) { Type_ := .RootDomain, Value := "baidu.com".toList } (by decide)

/-- C6: when the run produces a list, the labels of its groups are in strictly ascending
lexicographic order, whatever the outcomes that arrived and also when several of them share
a label. -/
theorem run_labels_strictly_sorted (U : CaseMapping) (lines : List GoString)
    (arrived : List DownloadResult) (ranged : List GoString) (out : GeoSiteList)
    (hranged : Ranged (collect (readConfig U lines).processingErrors arrived).downloadedSites
      ranged)
    (hrun : run U lines arrived ranged = .output out) :
    (out.Entry.map (fun g => g.CountryCode)).Sorted (· < ·) := by
  unfold run finish at hrun
  simp only at hrun
  split at hrun
  · exact RunResult.noConfusion hrun
  · injection hrun with hout
    rw [← hout, encode_entry, List.map_map]
    have hid : ((fun g : GeoSite => g.CountryCode) ∘ fun label =>
        ({ CountryCode := label,
           Domain := encodeDomains
            ((collect (readConfig U lines).processingErrors arrived).downloadedSites.get
              label) } : GeoSite)) = id := rfl
    rw [hid, List.map_id]
    apply List.Sorted.lt_of_le (sortStrings_sorted ranged)
    exact ((sortStrings_perm ranged).trans hranged).nodup_iff.mpr (keys_nodup _)

/-- C6, an instance: the two sources with the labels `CN` and `US`, the keys ranged over in
the other order. -/
theorem run_labels_strictly_sorted_witness :
    ((encode ["US".toList, "CN".toList]
        (collect [] (outcomes asciiCase exampleHttp
          (readConfig asciiCase twoSources).launched)).downloadedSites).Entry.map
      (fun g => g.CountryCode)).Sorted (· < ·) :=
  run_labels_strictly_sorted asciiCase twoSources
    (outcomes asciiCase exampleHttp (readConfig asciiCase twoSources).launched)
    ["US".toList, "CN".toList] _ (by unfold Ranged; decide) (by decide)

theorem filter_eq_singleton (l : List GoString) (k : GoString) (hnd : l.Nodup) (hk : k ∈ l) :
    l.filter (fun x => decide (x = k)) = [k] := by
  rw [List.filter_eq, List.count_eq_one_of_mem hnd hk]
  rfl

/-- C7: for every map handed to the encoder and every label of it, the encoded list has exactly
one group with this label, and the values of its entries are the domains of the label in the
map, as many and in the same order. -/
theorem encode_group_domains (m : GoMap) (ranged : List GoString) (k : GoString)
    (hranged : Ranged m ranged) (hk : k ∈ m.keys) :
    ∃ g, (encode ranged m).Entry.filter (fun g => decide (g.CountryCode = k)) = [g] ∧
      g.CountryCode = k ∧ g.Domain.map (fun e => e.Value) = m.get k ∧
      g.Domain.length = (m.get k).length := by
  refine ⟨{ CountryCode := k, Domain := encodeDomains (m.get k) }, ?_, rfl, ?_, ?_⟩
  · rw [encode_entry, List.filter_map]
    have hfun : ((fun g : GeoSite => decide (g.CountryCode = k)) ∘ fun label =>
        ({ CountryCode := label, Domain := encodeDomains (m.get label) } : GeoSite)) =
        fun x => decide (x = k) := rfl
    rw [hfun, filter_eq_singleton]
    · rfl
    · exact ((sortStrings_perm ranged).trans hranged).nodup_iff.mpr (keys_nodup _)
    · exact ((sortStrings_perm ranged).trans hranged).mem_iff.mpr hk
  · rw [encodeDomains_eq, List.map_map]
    exact List.map_id _
  · rw [encodeDomains_eq, List.length_map]

/-- C7, an instance: the label `CN` of a map of two labels, with its two domains. -/
theorem encode_group_domains_witness :
    ∃ g, (encode ["US".toList, "CN".toList] exampleSites).Entry.filter
        (fun g => decide (g.CountryCode = "CN".toList)) = [g] ∧
      g.CountryCode = "CN".toList ∧
      g.Domain.map (fun e => e.Value) = exampleSites.get "CN".toList ∧
      g.Domain.length = (exampleSites.get "CN".toList).length :=
  encode_group_domains exampleSites ["US".toList, "CN".toList] "CN".toList
    (by unfold Ranged; decide) (by decide)

/-! ### The domains and the warnings of `downloadList` -/

theorem ofNat_add_not_isUpper :
    ∀ n < 91, 65 ≤ n → (Char.ofNat (n + 32)).isUpper = false := by decide

/-- The mapping of the ASCII letters never gives an upper-case ASCII letter. -/
theorem toLower_not_isUpper (c : Char) : c.toLower.isUpper = false := by
  unfold Char.toLower
  dsimp only
  split_ifs with hc
  · exact ofNat_add_not_isUpper c.toNat (by omega) hc.1
  · simp only [Char.isUpper, Bool.and_eq_false_imp, decide_eq_true_eq,
      decide_eq_false_iff_not]
    intro a1 a2
    apply hc
    exact ⟨a1, a2⟩

/-- C8: when `unicode.ToLower` maps the ASCII runes as the ASCII lower-casing does and never
gives an upper-case ASCII letter, every string returned by `downloadList`, and every entry
value of the list that a run produces, satisfies `isValidDomain` and is left unchanged by
`strings.ToLower`. -/
theorem downloadList_domains_valid_lower (U : CaseMapping)
    (hascii : ∀ c : Char, c.toNat < 128 → U.lower c = c.toLower)
    (hupper : ∀ c : Char, (U.lower c).isUpper = false) :
    (∀ (httpGet : GoString → Except GoError Response) (url : GoString),
      ∀ d ∈ (downloadList U httpGet url).domains,
        isValidDomain d = true ∧ toLower U d = d) ∧
    (∀ (http : Nat → GoString → Except GoError Response) (lines : List GoString)
      (arrived : List DownloadResult) (ranged : List GoString) (out : GeoSiteList),
      Arrival U http lines arrived → run U lines arrived ranged = .output out →
      ∀ g ∈ out.Entry, ∀ e ∈ g.Domain,
        isValidDomain e.Value = true ∧ toLower U e.Value = e.Value) := by
  have hdl : ∀ (httpGet : GoString → Except GoError Response) (url : GoString),
      ∀ d ∈ (downloadList U httpGet url).domains,
        isValidDomain d = true ∧ toLower U d = d := by
    intro httpGet url d hd
    obtain ⟨line, rfl, hv⟩ := downloadList_domains_sub U httpGet url d hd
    exact ⟨hv, toLower_fixed U hascii hupper line hv⟩
  refine ⟨hdl, ?_⟩
  intro http lines arrived ranged out harr hrun g hg e he
  unfold run finish at hrun
  simp only at hrun
  split at hrun
  · exact RunResult.noConfusion hrun
  · injection hrun with hout
    rw [← hout, encode_entry, List.mem_map] at hg
    obtain ⟨k, _, rfl⟩ := hg
    simp only [encodeDomains_eq, List.mem_map] at he
    obtain ⟨d, hd, rfl⟩ := he
    obtain ⟨v, hv, hdv⟩ := mem_get _ k d hd
    obtain ⟨r, hr, _, _, hrd⟩ := (mem_collect_sites _ arrived k v).mp hv
    have hr2 := harr.mem_iff.mp hr
    unfold outcomes at hr2
    rw [List.mem_map] at hr2
    obtain ⟨p, _, rfl⟩ := hr2
    apply hdl (http p.1) p.2.URL d
    rw [← hrd] at hdv
    exact hdv

/-- C8, an instance: the list of `cn.txt` and the run over the two sources, for the mapping of
the ASCII letters. -/
theorem downloadList_domains_valid_lower_witness :
    (∀ d ∈ (downloadList asciiCase (exampleHttp 0) "http://x/cn.txt".toList).domains,
      isValidDomain d = true ∧ toLower asciiCase d = d) ∧
    (∀ g ∈ (encode ["CN".toList, "US".toList]
        (collect [] (outcomes asciiCase exampleHttp
          (readConfig asciiCase twoSources).launched)).downloadedSites).Entry,
      ∀ e ∈ g.Domain, isValidDomain e.Value = true ∧ toLower asciiCase e.Value = e.Value) :=
  ⟨(downloadList_domains_valid_lower asciiCase (fun _ _ => rfl) toLower_not_isUpper).1 _ _,
   (downloadList_domains_valid_lower asciiCase (fun _ _ => rfl) toLower_not_isUpper).2
      exampleHttp twoSources _ ["CN".toList, "US".toList] _ (List.Perm.refl _) (by decide)⟩

/-- C9: for a response with status 200 whose body is scanned without error, `downloadList`
returns the lines trimmed, without those that are then empty or start with `#`, `//` or `!`,
put in lower case, those kept that are valid domains, in the order met; and it returns no
error. -/
theorem downloadList_eq_spec (U : CaseMapping) (httpGet : GoString → Except GoError Response)
    (url : GoString) (resp : Response) (hget : httpGet url = .ok resp)
    (hstatus : resp.StatusCode = StatusOK) (hscan : resp.scanErr = none) :
    (downloadList U httpGet url).domains =
        (((resp.lines.map trimSpace).filter (fun l => !isSkipped l)).map (toLower U)).filter
          isValidDomain ∧
      (downloadList U httpGet url).err = none := by
  unfold downloadList
  rw [hget]
  simp only [hstatus, ne_eq, not_true_eq_false, if_false, hscan, scanLoop_eq]
  exact ⟨rfl, trivial⟩

/-- C9, an instance: the body of `cn.txt`. -/
theorem downloadList_eq_spec_witness :
    (downloadList asciiCase (fun _ => .ok cnResponse) "http://x/cn.txt".toList).domains =
        (((cnResponse.lines.map trimSpace).filter (fun l => !isSkipped l)).map
          (toLower asciiCase)).filter isValidDomain ∧
      (downloadList asciiCase (fun _ => .ok cnResponse) "http://x/cn.txt".toList).err = none :=
  downloadList_eq_spec asciiCase (fun _ => .ok cnResponse) "http://x/cn.txt".toList cnResponse
    rfl rfl rfl

theorem specWarnings_sorted_from (U : CaseMapping) (lines : List GoString) (n : Nat) :
    ((((lines.enumFrom n).filter (fun p =>
        !isSkipped (trimSpace p.2) && !isValidDomain (toLower U (trimSpace p.2)))).map
      (fun p => (p.1, trimSpace p.2))).map Prod.fst).Sorted (· < ·) := by
  rw [List.map_map]
  have hf : (Prod.fst ∘ fun p : Nat × GoString => (p.1, trimSpace p.2)) = Prod.fst := rfl
  rw [hf]
  have hsub := ((List.filter_sublist (p := fun p : Nat × GoString =>
        !isSkipped (trimSpace p.2) && !isValidDomain (toLower U (trimSpace p.2)))
      (lines.enumFrom n)).map Prod.fst)
  rw [List.enumFrom_map_fst] at hsub
  exact List.Pairwise.sublist hsub (List.pairwise_lt_range' n lines.length)

theorem spec_count_from (U : CaseMapping) (lines : List GoString) (n : Nat) :
    (specDomains U lines).length +
        ((lines.enumFrom n).filter (fun p =>
          !isSkipped (trimSpace p.2) && !isValidDomain (toLower U (trimSpace p.2)))).length =
      ((lines.map trimSpace).filter (fun l => !isSkipped l)).length := by
  induction lines generalizing n with
  | nil => simp [specDomains]
  | cons text rest ih =>
    have ih2 := ih (n + 1)
    unfold specDomains at ih2 ⊢
    by_cases hskip : isSkipped (trimSpace text) = true
    · simpa [hskip, List.enumFrom_cons] using ih2
    · by_cases hval : isValidDomain (toLower U (trimSpace text)) = true
      · simp only [Bool.not_eq_true] at hskip
        simp only [List.map_cons, List.enumFrom_cons, hskip, hval, Bool.not_false,
          Bool.not_true, Bool.and_false, List.filter_cons_of_pos, List.length_cons,
          Bool.false_eq_true, not_false_eq_true, List.filter_cons_of_neg] at ih2 ⊢
        omega
      · simp only [Bool.not_eq_true] at hskip hval
        simp only [List.map_cons, List.enumFrom_cons, hskip, hval, Bool.not_false,
          Bool.and_self, List.filter_cons_of_pos, List.length_cons,
          Bool.false_eq_true, not_false_eq_true, List.filter_cons_of_neg] at ih2 ⊢
        omega

/-- The warnings of `downloadList` for a response with status 200, in terms of the lines that
the scanner returns, whatever the end of the scan: the domains are the valid domains of these
lines, the warnings are those of the lines among them that are neither empty nor a comment and
fail `isValidDomain` in lower case, each with the position of its line counted from 1, in
increasing order; the domains and the warnings are together as many as the lines returned
that are neither empty nor a comment. -/
theorem downloadList_warnings_spec (U : CaseMapping)
    (httpGet : GoString → Except GoError Response) (url : GoString) (resp : Response)
    (hget : httpGet url = .ok resp) (hstatus : resp.StatusCode = StatusOK) :
    (downloadList U httpGet url).domains = specDomains U resp.lines ∧
      (downloadList U httpGet url).warnings = specWarnings U resp.lines ∧
      (∀ w ∈ (downloadList U httpGet url).warnings, 1 ≤ w.1 ∧
        ∃ text, resp.lines[w.1 - 1]? = some text ∧ w.2 = trimSpace text ∧
          isSkipped (trimSpace text) = false ∧
          isValidDomain (toLower U (trimSpace text)) = false) ∧
      ((downloadList U httpGet url).warnings.map Prod.fst).Sorted (· < ·) ∧
      (downloadList U httpGet url).domains.length +
          (downloadList U httpGet url).warnings.length =
        ((resp.lines.map trimSpace).filter (fun l => !isSkipped l)).length := by
  obtain ⟨hd, hw, _⟩ := downloadList_ok U httpGet url resp hget hstatus
  rw [hd, hw]
  refine ⟨rfl, rfl, ?_, specWarnings_sorted_from U resp.lines 1, ?_⟩
  · intro w hmem
    simp only [specWarnings, List.mem_map, List.mem_filter, Bool.and_eq_true,
      Bool.not_eq_true'] at hmem
    obtain ⟨⟨i, text⟩, ⟨hin, hskip, hval⟩, rfl⟩ := hmem
    obtain ⟨hle, hget2⟩ := List.mk_mem_enumFrom_iff_le_and_getElem?_sub.mp hin
    exact ⟨hle, text, hget2, rfl, hskip, hval⟩
  · have hcount := spec_count_from U resp.lines 1
    simp only [specWarnings, List.length_map]
    exact hcount

/-- The warnings of `downloadList` for the lines of `cn.txt` as the scanner returns them. -/
theorem downloadList_warnings_spec_witness :
    (downloadList asciiCase (fun _ => .ok cnResponse) "http://x/cn.txt".toList).domains =
        specDomains asciiCase cnResponse.lines ∧
      (downloadList asciiCase (fun _ => .ok cnResponse) "http://x/cn.txt".toList).warnings =
        specWarnings asciiCase cnResponse.lines ∧
      (∀ w ∈ (downloadList asciiCase (fun _ => .ok cnResponse)
          "http://x/cn.txt".toList).warnings, 1 ≤ w.1 ∧
        ∃ text, cnResponse.lines[w.1 - 1]? = some text ∧ w.2 = trimSpace text ∧
          isSkipped (trimSpace text) = false ∧
          isValidDomain (toLower asciiCase (trimSpace text)) = false) ∧
      ((downloadList asciiCase (fun _ => .ok cnResponse)
          "http://x/cn.txt".toList).warnings.map Prod.fst).Sorted (· < ·) ∧
      (downloadList asciiCase (fun _ => .ok cnResponse) "http://x/cn.txt".toList).domains.length +
          (downloadList asciiCase (fun _ => .ok cnResponse)
            "http://x/cn.txt".toList).warnings.length =
        ((cnResponse.lines.map trimSpace).filter (fun l => !isSkipped l)).length :=
  downloadList_warnings_spec asciiCase (fun _ => .ok cnResponse) "http://x/cn.txt".toList
    cnResponse rfl rfl

theorem cnResponse_warnings :
    (downloadList asciiCase (fun _ => .ok cnResponse) "http://x/cn.txt".toList).warnings =
      [(3, "BAD_DOMAIN".toList)] := by
  decide

/-! ### Idempotence of the filtering -/

theorem domainChars_not_space : ∀ c ∈ alnumChars ++ ['-', '.'], isSpace c = false := by decide

theorem dropWhile_of_all_false (p : Char → Bool) (s : GoString) (h : ∀ c ∈ s, p c = false) :
    s.dropWhile p = s := by
  cases s with
  | nil => rfl
  | cons c cs => simp [List.dropWhile, h c (List.mem_cons_self _ _)]

/-- A string without white space is left unchanged by `strings.TrimSpace`. -/
theorem trimSpace_of_no_space (s : GoString) (h : ∀ c ∈ s, isSpace c = false) :
    trimSpace s = s := by
  unfold trimSpace
  rw [dropWhile_of_all_false isSpace s h,
    dropWhile_of_all_false isSpace s.reverse (fun c hc => h c (List.mem_reverse.mp hc)),
    List.reverse_reverse]

theorem trimSpace_of_valid {s : GoString} (h : isValidDomain s = true) : trimSpace s = s :=
  trimSpace_of_no_space s (fun c hc => domainChars_not_space c (isValidDomain_chars h c hc))

theorem domainChars_not_comment :
    ∀ c ∈ alnumChars ++ ['-', '.'], c ≠ '#' ∧ c ≠ '/' ∧ c ≠ '!' := by decide

/-- A valid domain is neither empty nor a comment line. -/
theorem isSkipped_of_valid {s : GoString} (h : isValidDomain s = true) : isSkipped s = false := by
  have hch := isValidDomain_chars h
  cases s with
  | nil =>
    have := ((isValidDomain_iff []).mp h).2.1
    simp [splitOn] at this
  | cons c cs =>
    obtain ⟨h1, h2, h3⟩ := domainChars_not_comment c (hch c (List.mem_cons_self _ _))
    simp only [isSkipped, hasPrefix, String.toList, List.isPrefixOf, Bool.or_eq_false_iff,
      beq_eq_false_iff_ne, ne_eq, reduceCtorEq, not_false_eq_true, true_and]
    cases cs with
    | nil => simp [List.isPrefixOf, Ne.symm h1, Ne.symm h2, Ne.symm h3]
    | cons d ds => simp [List.isPrefixOf, Ne.symm h1, Ne.symm h2, Ne.symm h3]

/-- Lines that are valid domains in lower case pass the loop of `downloadList` unchanged, and
without a warning. -/
theorem spec_of_valid_lower (U : CaseMapping) (lines : List GoString)
    (h : ∀ l ∈ lines, isValidDomain l = true ∧ toLower U l = l) :
    specDomains U lines = lines ∧ specWarnings U lines = [] := by
  constructor
  · unfold specDomains
    induction lines with
    | nil => rfl
    | cons l rest ih =>
      obtain ⟨hv, hl⟩ := h l (List.mem_cons_self _ _)
      have ih2 := ih (fun m hm => h m (List.mem_cons_of_mem _ hm))
      simp only [List.map_cons, trimSpace_of_valid hv, isSkipped_of_valid hv, Bool.not_false,
        List.filter_cons_of_pos, hl, hv]
      rw [ih2]
  · unfold specWarnings
    rw [List.map_eq_nil_iff, List.filter_eq_nil_iff]
    intro p hp
    obtain ⟨_, _, hx⟩ := List.mem_enumFrom hp
    have hmem : p.2 ∈ lines := by rw [hx]; exact List.getElem_mem _
    obtain ⟨hv, hl⟩ := h p.2 hmem
    simp [trimSpace_of_valid hv, hl, hv]

/-- C11: when `unicode.ToLower` maps the ASCII runes as the ASCII lower-casing does and never
gives an upper-case ASCII letter, the domains returned by `downloadList`, fed back to it as the
lines of a new body, are returned in the same sequence and without a warning; and a body whose
every line is a valid domain left unchanged by the lower-casing is returned unchanged. -/
theorem downloadList_idempotent (U : CaseMapping)
    (hascii : ∀ c : Char, c.toNat < 128 → U.lower c = c.toLower)
    (hupper : ∀ c : Char, (U.lower c).isUpper = false)
    (httpGet httpGet₂ : GoString → Except GoError Response) (url url₂ : GoString)
    (resp₂ : Response) (hget : httpGet₂ url₂ = .ok resp₂)
    (hstatus : resp₂.StatusCode = StatusOK) :
    (resp₂.lines = (downloadList U httpGet url).domains →
      (downloadList U httpGet₂ url₂).domains = (downloadList U httpGet url).domains ∧
        (downloadList U httpGet₂ url₂).warnings = []) ∧
    ((∀ l ∈ resp₂.lines, isValidDomain l = true ∧ toLower U l = l) →
      (downloadList U httpGet₂ url₂).domains = resp₂.lines ∧
        (downloadList U httpGet₂ url₂).warnings = []) := by
  obtain ⟨hd, hw, _⟩ := downloadList_ok U httpGet₂ url₂ resp₂ hget hstatus
  have hsecond : (∀ l ∈ resp₂.lines, isValidDomain l = true ∧ toLower U l = l) →
      (downloadList U httpGet₂ url₂).domains = resp₂.lines ∧
        (downloadList U httpGet₂ url₂).warnings = [] := by
    intro h
    obtain ⟨h1, h2⟩ := spec_of_valid_lower U resp₂.lines h
    exact ⟨hd.trans h1, hw.trans h2⟩
  refine ⟨?_, hsecond⟩
  intro hlines
  rw [← hlines]
  apply hsecond
  intro l hl
  rw [hlines] at hl
  obtain ⟨line, rfl, hv⟩ := downloadList_domains_sub U httpGet url l hl
  exact ⟨hv, toLower_fixed U hascii hupper line hv⟩

/-- C11, an instance: the domains returned for the body of `cn.txt`, fed back. -/
theorem downloadList_idempotent_witness :
    ((downloadList asciiCase (fun _ => okResponse
          (downloadList asciiCase (fun _ => .ok cnResponse) "http://x/cn.txt".toList).domains)
          "again".toList).domains =
        (downloadList asciiCase (fun _ => .ok cnResponse) "http://x/cn.txt".toList).domains ∧
      (downloadList asciiCase (fun _ => okResponse
          (downloadList asciiCase (fun _ => .ok cnResponse) "http://x/cn.txt".toList).domains)
          "again".toList).warnings = []) ∧
    ((downloadList asciiCase (fun _ => okResponse ["baidu.com".toList, "qq.com".toList])
          "again".toList).domains = ["baidu.com".toList, "qq.com".toList] ∧
      (downloadList asciiCase (fun _ => okResponse ["baidu.com".toList, "qq.com".toList])
          "again".toList).warnings = []) :=
  ⟨(downloadList_idempotent asciiCase (fun _ _ => rfl) toLower_not_isUpper
      (fun _ => .ok cnResponse)
      (fun _ => okResponse
        (downloadList asciiCase (fun _ => .ok cnResponse) "http://x/cn.txt".toList).domains)
      "http://x/cn.txt".toList "again".toList
      { StatusCode := StatusOK,
        lines :=
          (downloadList asciiCase (fun _ => .ok cnResponse) "http://x/cn.txt".toList).domains,
        scanErr := none }
      rfl rfl).1 rfl,
   (downloadList_idempotent asciiCase (fun _ _ => rfl) toLower_not_isUpper
      (fun _ => .ok cnResponse)
      (fun _ => okResponse ["baidu.com".toList, "qq.com".toList])
      "http://x/cn.txt".toList "again".toList
      { StatusCode := StatusOK, lines := ["baidu.com".toList, "qq.com".toList],
        scanErr := none }
      rfl rfl).2 (by decide)⟩

/-! ### `parseURLLine` -/

theorem parseURLLine_two (U : CaseMapping) (line part0 part1 : GoString)
    (h : splitOn ',' line = [part0, part1]) :
    parseURLLine U line =
      if trimSpace part0 = [] then .error .emptyPrefix
      else if trimSpace part1 = [] then .error .emptyURL
      else .ok { Prefix := toUpper U (trimSpace part0), URL := trimSpace part1 } := by
  unfold parseURLLine
  rw [h]

theorem parseURLLine_not_two (U : CaseMapping) (line : GoString)
    (h : (splitOn ',' line).length ≠ 2) : parseURLLine U line = .error (.badFormat line) := by
  unfold parseURLLine
  split
  · rename_i part0 part1 heq
    rw [heq] at h
    exact absurd rfl h
  · rfl

theorem length_two_cases (l : List GoString) (h : l.length = 2) :
    ∃ part0 part1, l = [part0, part1] := by
  match l, h with
  | [a, b], _ => exact ⟨a, b, rfl⟩

/-- C12: `parseURLLine` fails exactly when splitting the line on `,` does not give two fields,
or the first field is empty once trimmed, or the second field is empty once trimmed; in every
other case it succeeds. -/
theorem parseURLLine_fails_iff (U : CaseMapping) (line : GoString) :
    ((∃ err, parseURLLine U line = .error err) ↔
      ((splitOn ',' line).length ≠ 2 ∨ labelField line = [] ∨ urlField line = [])) ∧
    ((∃ item, parseURLLine U line = .ok item) ↔
      ¬ ((splitOn ',' line).length ≠ 2 ∨ labelField line = [] ∨ urlField line = [])) := by
  by_cases hlen : (splitOn ',' line).length = 2
  · obtain ⟨part0, part1, hsplit⟩ := length_two_cases _ hlen
    have hl : labelField line = trimSpace part0 := by simp [labelField, hsplit]
    have hu : urlField line = trimSpace part1 := by simp [urlField, hsplit]
    rw [parseURLLine_two U line part0 part1 hsplit, hl, hu]
    by_cases h0 : trimSpace part0 = []
    · simp [h0]
    · by_cases h1 : trimSpace part1 = []
      · simp [h0, h1]
      · simp [h0, h1, hlen]
  · rw [parseURLLine_not_two U line hlen]
    simp [hlen]

theorem toUpper_ne_nil (U : CaseMapping) (s : GoString) (h : s ≠ []) : toUpper U s ≠ [] := by
  unfold toUpper
  simpa using h

theorem parseURLLine_ok_fields (U : CaseMapping) (line : GoString) (item : URLItem)
    (h : parseURLLine U line = .ok item) :
    (splitOn ',' line).length = 2 ∧ labelField line ≠ [] ∧ urlField line ≠ [] ∧
      item.Prefix = toUpper U (labelField line) ∧ item.URL = urlField line := by
  by_cases hlen : (splitOn ',' line).length = 2
  · obtain ⟨part0, part1, hsplit⟩ := length_two_cases _ hlen
    have hl : labelField line = trimSpace part0 := by simp [labelField, hsplit]
    have hu : urlField line = trimSpace part1 := by simp [urlField, hsplit]
    rw [parseURLLine_two U line part0 part1 hsplit] at h
    rw [hl, hu]
    by_cases h0 : trimSpace part0 = []
    · simp [h0] at h
    · by_cases h1 : trimSpace part1 = []
      · simp [h0, h1] at h
      · simp only [h0, h1, if_false] at h
        injection h with h
        subst h
        exact ⟨hlen, h0, h1, rfl, rfl⟩
  · rw [parseURLLine_not_two U line hlen] at h
    exact Except.noConfusion h

theorem toUpper_toLower_ascii : ∀ n < 128,
    (Char.ofNat n).toLower.toUpper = (Char.ofNat n).toUpper ∧
      (Char.ofNat n).toLower.toNat < 128 := by decide

theorem toLower_of_not_ascii (c : Char) (h : ¬ c.toNat < 128) : c.toLower = c := by
  unfold Char.toLower
  dsimp only
  rw [if_neg]
  omega

/-- Runes with one ASCII lower-casing have one upper-casing. -/
theorem upper_eq_of_toLower_eq (U : CaseMapping)
    (hascii : ∀ c : Char, c.toNat < 128 → U.upper c = c.toUpper)
    (c d : Char) (h : c.toLower = d.toLower) : U.upper c = U.upper d := by
  by_cases hc : c.toNat < 128
  · by_cases hd : d.toNat < 128
    · rw [hascii c hc, hascii d hd]
      have e1 := (toUpper_toLower_ascii c.toNat hc).1
      have e2 := (toUpper_toLower_ascii d.toNat hd).1
      rw [Char.ofNat_toNat] at e1 e2
      rw [← e1, ← e2, h]
    · have e1 := (toUpper_toLower_ascii c.toNat hc).2
      rw [Char.ofNat_toNat, h, toLower_of_not_ascii d hd] at e1
      exact absurd e1 hd
  · by_cases hd : d.toNat < 128
    · have e1 := (toUpper_toLower_ascii d.toNat hd).2
      rw [Char.ofNat_toNat, ← h, toLower_of_not_ascii c hc] at e1
      exact absurd e1 hc
    · rw [toLower_of_not_ascii c hc, toLower_of_not_ascii d hd] at h
      rw [h]

theorem toUpper_eq_of_differOnlyInCase (U : CaseMapping)
    (hascii : ∀ c : Char, c.toNat < 128 → U.upper c = c.toUpper)
    (a b : GoString) (h : differOnlyInCase a b) : toUpper U a = toUpper U b := by
  unfold differOnlyInCase at h
  unfold toUpper
  induction a generalizing b with
  | nil =>
    cases b with
    | nil => rfl
    | cons d ds => simp at h
  | cons c cs ih =>
    cases b with
    | nil => simp at h
    | cons d ds =>
      simp only [List.map_cons, List.cons.injEq] at h ⊢
      exact ⟨upper_eq_of_toLower_eq U hascii c d h.1, ih ds h.2⟩

/-- C13: when `unicode.ToUpper` maps the ASCII runes as the ASCII upper-casing does, a line on
which `parseURLLine` succeeds gives a label that is not empty and is the first field trimmed
and put in upper case, and a URL that is not empty and is the second field trimmed, its case
unchanged; two lines whose trimmed first fields differ only in the case of ASCII letters give
the same label. -/
theorem parseURLLine_ok_spec (U : CaseMapping)
    (hascii : ∀ c : Char, c.toNat < 128 → U.upper c = c.toUpper)
    (line₁ line₂ : GoString) (item₁ item₂ : URLItem)
    (h₁ : parseURLLine U line₁ = .ok item₁) (h₂ : parseURLLine U line₂ = .ok item₂) :
    (item₁.Prefix ≠ [] ∧ item₁.Prefix = toUpper U (labelField line₁) ∧
      item₁.URL ≠ [] ∧ item₁.URL = urlField line₁) ∧
    (differOnlyInCase (labelField line₁) (labelField line₂) →
      item₁.Prefix = item₂.Prefix) := by
  obtain ⟨_, hl1, hu1, hp1, hurl1⟩ := parseURLLine_ok_fields U line₁ item₁ h₁
  obtain ⟨_, _, _, hp2, _⟩ := parseURLLine_ok_fields U line₂ item₂ h₂
  refine ⟨⟨?_, hp1, ?_, hurl1⟩, ?_⟩
  · rw [hp1]; exact toUpper_ne_nil U _ hl1
  · rw [hurl1]; exact hu1
  · intro hcase
    rw [hp1, hp2]
    exact toUpper_eq_of_differOnlyInCase U hascii _ _ hcase

/-- C13, an instance: the lines ` cn , http://x/Cn.txt` and `Cn,http://y`. -/
theorem parseURLLine_ok_spec_witness :
    (("CN".toList ≠ [] ∧ "CN".toList = toUpper asciiCase (labelField " cn , http://x/Cn.txt".toList) ∧
      "http://x/Cn.txt".toList ≠ [] ∧
      "http://x/Cn.txt".toList = urlField " cn , http://x/Cn.txt".toList) ∧
    "CN".toList = "CN".toList) :=
  ⟨(parseURLLine_ok_spec asciiCase (fun _ _ => rfl) " cn , http://x/Cn.txt".toList
      "Cn,http://y".toList { Prefix := "CN".toList, URL := "http://x/Cn.txt".toList }
      { Prefix := "CN".toList, URL := "http://y".toList } rfl rfl).1,
   (parseURLLine_ok_spec asciiCase (fun _ _ => rfl) " cn , http://x/Cn.txt".toList
      "Cn,http://y".toList { Prefix := "CN".toList, URL := "http://x/Cn.txt".toList }
      { Prefix := "CN".toList, URL := "http://y".toList } rfl rfl).2 (by decide)⟩

/-! ### The aggregated map -/

theorem lookup_reverse_map (L : List DownloadResult) (k : GoString) :
    ((L.map (fun r => (r.Prefix, r.Domains))).reverse).lookup k =
      ((L.filter (fun r => r.Prefix == k)).getLast?).map (fun r => r.Domains) := by
  induction L using List.reverseRecOn with
  | nil => rfl
  | append_singleton L r ih =>
    rw [List.map_append, List.reverse_append, List.filter_append]
    simp only [List.map_cons, List.map_nil, List.reverse_cons, List.reverse_nil,
      List.nil_append, List.singleton_append, List.lookup_cons]
    by_cases hk : k = r.Prefix
    · subst hk
      simp
    · have hb : (k == r.Prefix) = false := by simpa using hk
      have hb2 : (r.Prefix == k) = false := by simpa using fun e => hk e.symm
      rw [hb]
      simp [ih, List.filter_cons, hb2]

theorem collect_lookup (errs : List GoError) (arrived : List DownloadResult) (k : GoString) :
    (collect errs arrived).downloadedSites.lookup k =
      (lastOutcome arrived k).map (fun r => r.Domains) := by
  rw [collect_eq]
  simp only
  rw [lookup_reverse_map, List.filter_filter]
  unfold lastOutcome
  congr 2
  apply List.filter_congr
  intro r _
  exact Bool.and_comm _ _

/-- C14: the labels of the aggregated map are exactly the labels of the outcomes that carry no
error; each label of it maps to the domains of the last outcome without error that carries the
label, in the order of arrival; every binding comes from an outcome without error, so that an
outcome with an error adds nothing; and the aggregation is defined for every list of outcomes,
repeated labels included. -/
theorem collect_last_write_wins (errs : List GoError) (arrived : List DownloadResult)
    (k : GoString) :
    (k ∈ (collect errs arrived).downloadedSites.keys ↔
      ∃ r ∈ arrived, r.Err = none ∧ r.Prefix = k) ∧
    (collect errs arrived).downloadedSites.lookup k =
      (lastOutcome arrived k).map (fun r => r.Domains) ∧
    (collect errs arrived).downloadedSites.get k =
      ((lastOutcome arrived k).map (fun r => r.Domains)).getD [] ∧
    (∀ v, (k, v) ∈ (collect errs arrived).downloadedSites →
      ∃ r ∈ arrived, r.Err = none ∧ r.Prefix = k ∧ r.Domains = v) := by
  refine ⟨?_, collect_lookup errs arrived k, ?_, ?_⟩
  · rw [mem_keys]
    constructor
    · rintro ⟨v, hv⟩
      obtain ⟨r, hr, he, hp, _⟩ := (mem_collect_sites errs arrived k v).mp hv
      exact ⟨r, hr, he, hp⟩
    · rintro ⟨r, hr, he, hp⟩
      exact ⟨r.Domains, (mem_collect_sites errs arrived k r.Domains).mpr ⟨r, hr, he, hp, rfl⟩⟩
  · unfold GoMap.get
    rw [collect_lookup]
  · intro v hv
    exact (mem_collect_sites errs arrived k v).mp hv

/-- C14, an instance: the label `CN` of three outcomes, two of them for `CN`; the later one
gives the domains. -/
theorem collect_last_write_wins_witness :
    (collect [] repeatedLabelOutcomes).downloadedSites.get "CN".toList = ["b.com".toList] ∧
      ∃ r ∈ repeatedLabelOutcomes, r.Err = none ∧ r.Prefix = "CN".toList ∧
        r.Domains = ["b.com".toList] :=
  ⟨((collect_last_write_wins [] repeatedLabelOutcomes "CN".toList).2.2.1).trans (by decide),
   (collect_last_write_wins [] repeatedLabelOutcomes "CN".toList).2.2.2 ["b.com".toList]
     (by decide)⟩

/-! ### Examples of the validator -/

/-- C15: `isValidDomain` accepts `example.com` and rejects `-bad.com`, the string of 254
letters `a` followed by `.com`, and `exa_mple.com`. -/
theorem isValidDomain_examples :
    isValidDomain "example.com".toList = true ∧
      isValidDomain "-bad.com".toList = false ∧
      isValidDomain (List.replicate 254 'a' ++ ".com".toList) = false ∧
      isValidDomain "exa_mple.com".toList = false := by
  refine ⟨by decide, by decide, ?_, by decide⟩
  have hlen : goLen (List.replicate 254 'a' ++ ".com".toList) > 253 := by
    have h1 := length_le_goLen (List.replicate 254 'a' ++ ".com".toList)
    have h2 : (List.replicate 254 'a' ++ ".com".toList).length = 258 := by
      rw [List.length_append, List.length_replicate]
      rfl
    omega
  unfold isValidDomain
  rw [if_pos hlen]

/-! ### The errors of `downloadList` -/

/-- C16: for a response with status 200 whose scan fails after some lines, `downloadList`
returns an error together with the domains of the lines read before the failure, filtered as
for a whole body and in their order; when `http.Get` fails, or the status is not 200, it
returns an error and no domain. -/
theorem downloadList_errors (U : CaseMapping) (httpGet : GoString → Except GoError Response)
    (url : GoString) :
    (∀ resp cause, httpGet url = .ok resp → resp.StatusCode = StatusOK →
      resp.scanErr = some cause →
      (downloadList U httpGet url).err = some (.readFailed url cause) ∧
        (downloadList U httpGet url).domains = specDomains U resp.lines) ∧
    (∀ cause, httpGet url = .error cause →
      (downloadList U httpGet url).err = some (.getFailed url cause) ∧
        (downloadList U httpGet url).domains = []) ∧
    (∀ resp, httpGet url = .ok resp → resp.StatusCode ≠ StatusOK →
      (downloadList U httpGet url).err = some (.badStatus url resp.StatusCode) ∧
        (downloadList U httpGet url).domains = []) := by
  refine ⟨?_, ?_, ?_⟩
  · intro resp cause hget hstatus hscan
    unfold downloadList
    rw [hget]
    simp only [hstatus, ne_eq, not_true_eq_false, if_false, hscan, scanLoop_eq]
    exact ⟨trivial, trivial⟩
  · intro cause hget
    unfold downloadList
    rw [hget]
    exact ⟨rfl, rfl⟩
  · intro resp hget hstatus
    unfold downloadList
    rw [hget]
    simp only [hstatus, ne_eq, not_false_eq_true, if_true]
    exact ⟨trivial, trivial⟩

/-- C16, instances: a scan that fails after two lines, a failure of `http.Get`, and the
status 404. -/
theorem downloadList_errors_witness :
    ((downloadList asciiCase (fun _ => .ok brokenResponse) "u".toList).err =
        some (.readFailed "u".toList (.external "unexpected EOF".toList)) ∧
      (downloadList asciiCase (fun _ => .ok brokenResponse) "u".toList).domains =
        specDomains asciiCase brokenResponse.lines) ∧
    ((downloadList asciiCase (fun _ => .error (.external "no route".toList)) "u".toList).err =
        some (.getFailed "u".toList (.external "no route".toList)) ∧
      (downloadList asciiCase (fun _ => .error (.external "no route".toList))
        "u".toList).domains = []) ∧
    ((downloadList asciiCase (failingHttp 0) "http://x/us.txt".toList).err =
        some (.badStatus "http://x/us.txt".toList 404) ∧
      (downloadList asciiCase (failingHttp 0) "http://x/us.txt".toList).domains = []) :=
  ⟨(downloadList_errors asciiCase (fun _ => .ok brokenResponse) "u".toList).1
      brokenResponse (.external "unexpected EOF".toList) rfl rfl rfl,
   (downloadList_errors asciiCase (fun _ => .error (.external "no route".toList))
      "u".toList).2.1 (.external "no route".toList) rfl,
   (downloadList_errors asciiCase (failingHttp 0) "http://x/us.txt".toList).2.2
      { StatusCode := 404, lines := [], scanErr := none } rfl (by decide)⟩

theorem brokenResponse_domains :
    (downloadList asciiCase (fun _ => .ok brokenResponse) "u".toList).domains =
      ["baidu.com".toList] := by
  decide

/-! ### The reading of the configuration -/

theorem parsedLines_append (pre post : List GoString) :
    parsedLines (pre ++ post) = parsedLines pre ++ parsedLines post := by
  simp [parsedLines]

/-- C17: the sources for which a fetch is started are the successful results of
`parseURLLine` on the lines of the file, trimmed, that are neither empty nor start with `#`,
in the order of the file, and there is one outcome for each of them; a line that fails to
parse is recorded as an error, and the reading goes on after it: the sources of a file are
those of any beginning of it followed by those of the rest. -/
theorem readConfig_spec (U : CaseMapping) (http : Nat → GoString → Except GoError Response)
    (lines : List GoString) :
    (readConfig U lines).launched =
        (parsedLines lines).filterMap (fun line => (parseURLLine U line).toOption) ∧
      (outcomes U http (readConfig U lines).launched).length =
        (readConfig U lines).launched.length ∧
      (∀ i, ∀ h : i < (readConfig U lines).launched.length,
        (outcomes U http (readConfig U lines).launched)[i]? =
          some (processURL U (http i) ((readConfig U lines).launched.get ⟨i, h⟩))) ∧
      (∀ line ∈ parsedLines lines, ∀ err, parseURLLine U line = .error err →
        GoError.parseFailed err ∈ (readConfig U lines).processingErrors) ∧
      (∀ pre post, lines = pre ++ post →
        (readConfig U lines).launched =
          (readConfig U pre).launched ++ (readConfig U post).launched) := by
  refine ⟨by rw [readConfig_eq], outcomes_length U http _, ?_, ?_, ?_⟩
  · intro i h
    unfold outcomes
    rw [List.getElem?_map, List.getElem?_enum, List.getElem?_eq_getElem h]
    rfl
  · intro line hline err herr
    rw [readConfig_eq]
    simp only
    rw [List.mem_filterMap]
    exact ⟨line, hline, by simp [parseError, herr]⟩
  · intro pre post hlines
    rw [hlines]
    simp only [readConfig_eq, parsedLines_append, List.filterMap_append]

/-- C17, an instance: the configuration of one malformed line followed by one source. -/
theorem readConfig_spec_witness :
    (readConfig asciiCase malformedConfig).launched =
        [{ Prefix := "CN".toList, URL := "http://x/cn.txt".toList }] ∧
      GoError.parseFailed (.badFormat "bad".toList) ∈
        (readConfig asciiCase malformedConfig).processingErrors ∧
      (readConfig asciiCase malformedConfig).launched =
        (readConfig asciiCase ["bad".toList]).launched ++
          (readConfig asciiCase ["CN,http://x/cn.txt".toList]).launched :=
  ⟨(readConfig_spec asciiCase exampleHttp malformedConfig).1.trans (by decide),
   (readConfig_spec asciiCase exampleHttp malformedConfig).2.2.2.1 "bad".toList (by decide)
      (.badFormat "bad".toList) rfl,
   (readConfig_spec asciiCase exampleHttp malformedConfig).2.2.2.2 ["bad".toList]
      ["CN,http://x/cn.txt".toList] rfl⟩

/-! ### When the run produces a database -/

theorem filterMap_parseError_eq_nil (U : CaseMapping) (ls : List GoString) :
    ls.filterMap (parseError U) = [] ↔ ∀ l ∈ ls, ∃ item, parseURLLine U l = .ok item := by
  rw [List.filterMap_eq_nil_iff]
  constructor
  · intro h l hl
    have := h l hl
    unfold parseError at this
    cases hp : parseURLLine U l with
    | error e => rw [hp] at this; simp at this
    | ok item => exact ⟨item, rfl⟩
  · intro h l hl
    obtain ⟨item, hi⟩ := h l hl
    simp [parseError, hi]

theorem filterMap_downloadError_eq_nil (arrived : List DownloadResult) :
    arrived.filterMap downloadError = [] ↔ ∀ r ∈ arrived, r.Err = none := by
  rw [List.filterMap_eq_nil_iff]
  constructor
  · intro h r hr
    have := h r hr
    simpa [downloadError] using this
  · intro h r hr
    simp [downloadError, h r hr]

theorem mem_outcomes_prefix (U : CaseMapping) (http : Nat → GoString → Except GoError Response)
    (launched : List URLItem) (k : GoString) :
    (∃ r ∈ outcomes U http launched, r.Prefix = k) ↔ k ∈ launched.map (fun it => it.Prefix) := by
  unfold outcomes
  simp only [List.mem_map]
  constructor
  · rintro ⟨r, ⟨p, hp, rfl⟩, hk⟩
    refine ⟨p.2, ?_, hk⟩
    have := List.mem_enum hp
    rw [this.2]
    exact List.getElem_mem _
  · rintro ⟨it, hit, hk⟩
    obtain ⟨i, hi, hget⟩ := List.getElem_of_mem hit
    refine ⟨processURL U (http i) it, ⟨(i, it), ?_, rfl⟩, hk⟩
    rw [List.mk_mem_enum_iff_getElem?, List.getElem?_eq_getElem hi, hget]

/-- C19: the run produces a list exactly when `parseURLLine` accepts every line of the
configuration that is neither blank nor a `#` line and every fetch started returns no error;
the labels of the groups of the list are then exactly the labels of the sources of the
configuration, each the first field of its line trimmed and in upper case. -/
theorem run_output_iff (U : CaseMapping) (http : Nat → GoString → Except GoError Response)
    (lines : List GoString) (arrived : List DownloadResult) (ranged : List GoString)
    (harr : Arrival U http lines arrived)
    (hranged : Ranged (collect (readConfig U lines).processingErrors arrived).downloadedSites
      ranged) :
    ((∃ out, run U lines arrived ranged = .output out) ↔
      ((∀ l ∈ parsedLines lines, ∃ item, parseURLLine U l = .ok item) ∧
        ∀ r ∈ outcomes U http (readConfig U lines).launched, r.Err = none)) ∧
    (∀ out, run U lines arrived ranged = .output out →
      (∀ k, k ∈ out.Entry.map (fun g => g.CountryCode) ↔
        k ∈ (readConfig U lines).launched.map (fun it => it.Prefix)) ∧
      ∀ it ∈ (readConfig U lines).launched, ∃ line ∈ parsedLines lines,
        parseURLLine U line = .ok it ∧ it.Prefix = toUpper U (labelField line)) := by
  have hiff : (∃ out, run U lines arrived ranged = .output out) ↔
      ((∀ l ∈ parsedLines lines, ∃ item, parseURLLine U l = .ok item) ∧
        ∀ r ∈ outcomes U http (readConfig U lines).launched, r.Err = none) := by
    rw [run_eq, ← filterMap_parseError_eq_nil]
    have hd : (∀ r ∈ outcomes U http (readConfig U lines).launched, r.Err = none) ↔
        arrived.filterMap downloadError = [] := by
      rw [filterMap_downloadError_eq_nil]
      exact ⟨fun h r hr => h r (harr.mem_iff.mp hr), fun h r hr => h r (harr.mem_iff.mpr hr)⟩
    rw [hd]
    by_cases hempty : (parsedLines lines).filterMap (parseError U) ++
        arrived.filterMap downloadError = []
    · rw [hempty]
      simp only [List.length_nil, gt_iff_lt, Nat.lt_irrefl, if_false]
      rw [List.append_eq_nil] at hempty
      exact ⟨fun _ => hempty, fun _ => ⟨_, rfl⟩⟩
    · rw [if_pos (List.length_pos.mpr hempty)]
      constructor
      · rintro ⟨out, hout⟩
        exact RunResult.noConfusion hout
      · intro h
        exact absurd (List.append_eq_nil.mpr h) hempty
  refine ⟨hiff, ?_⟩
  intro out hout
  have hall := (hiff.mp ⟨out, hout⟩).2
  constructor
  · intro k
    unfold run finish at hout
    simp only at hout
    split at hout
    · exact RunResult.noConfusion hout
    · injection hout with hout
      rw [← hout, encode_entry, List.map_map]
      have hid : ((fun g : GeoSite => g.CountryCode) ∘ fun label =>
          ({ CountryCode := label,
             Domain := encodeDomains
              ((collect (readConfig U lines).processingErrors arrived).downloadedSites.get
                label) } : GeoSite)) = id := rfl
      rw [hid, List.map_id, (sortStrings_perm ranged).mem_iff, hranged.mem_iff, mem_keys,
        ← mem_outcomes_prefix U http]
      constructor
      · rintro ⟨v, hv⟩
        obtain ⟨r, hr, _, hp, _⟩ := (mem_collect_sites _ arrived k v).mp hv
        exact ⟨r, harr.mem_iff.mp hr, hp⟩
      · rintro ⟨r, hr, hp⟩
        exact ⟨r.Domains, (mem_collect_sites _ arrived k r.Domains).mpr
          ⟨r, harr.mem_iff.mpr hr, hall r hr, hp, rfl⟩⟩
  · intro it hit
    rw [readConfig_eq] at hit
    simp only [List.mem_filterMap] at hit
    obtain ⟨line, hline, hopt⟩ := hit
    have hok : parseURLLine U line = .ok it := by
      cases hp : parseURLLine U line with
      | error e => rw [hp] at hopt; simp [Except.toOption] at hopt
      | ok item =>
        rw [hp] at hopt
        simp only [Except.toOption, Option.some.injEq] at hopt
        rw [hopt]
    exact ⟨line, hline, hok, (parseURLLine_ok_fields U line it hok).2.2.2.1⟩

/-- C19, an instance: the two sources `CN` and `US`, both fetched without error. -/
theorem run_output_iff_witness :
    ((∃ out, run asciiCase twoSources
        (outcomes asciiCase exampleHttp (readConfig asciiCase twoSources).launched)
        ["US".toList, "CN".toList] = .output out) ↔
      ((∀ l ∈ parsedLines twoSources, ∃ item, parseURLLine asciiCase l = .ok item) ∧
        ∀ r ∈ outcomes asciiCase exampleHttp (readConfig asciiCase twoSources).launched,
          r.Err = none)) ∧
    (∀ k, k ∈ (encode ["US".toList, "CN".toList]
        (collect [] (outcomes asciiCase exampleHttp
          (readConfig asciiCase twoSources).launched)).downloadedSites).Entry.map
          (fun g => g.CountryCode) ↔
      k ∈ (readConfig asciiCase twoSources).launched.map (fun it => it.Prefix)) :=
  ⟨(run_output_iff asciiCase exampleHttp twoSources _ ["US".toList, "CN".toList]
      (List.Perm.refl _) (by unfold Ranged; decide)).1,
   ((run_output_iff asciiCase exampleHttp twoSources _ ["US".toList, "CN".toList]
      (List.Perm.refl _) (by unfold Ranged; decide)).2 _ (by decide)).1⟩

/-! ### Strings without a dot, and misplaced dots -/

theorem nil_mem_tail_splitOn (sep : Char) (a b : GoString) :
    [] ∈ (splitOn sep (a ++ sep :: sep :: b)).tail := by
  induction a with
  | nil => simp [splitOn]
  | cons c cs ih =>
    by_cases hc : c = sep
    · simp only [List.cons_append, splitOn, hc, if_true, List.tail_cons]
      exact List.mem_of_mem_tail ih
    · simp only [List.cons_append, splitOn, hc, if_false]
      cases hs : splitOn sep (cs ++ sep :: sep :: b) with
      | nil => exact absurd hs (splitOn_ne_nil _ _)
      | cons l ls =>
        rw [hs] at ih
        simpa using ih

/-- A valid domain is a sequence of one or more labels, each followed by a dot, and a last
label. -/
theorem isValidDomain_decomp {s : GoString} (h : isValidDomain s = true) :
    ∃ (l : GoString) (ls : List GoString) (lst : GoString),
      validLabel l ∧ validLabel lst ∧
        s = l ++ '.' :: ((ls.map (fun x => x ++ ['.'])).flatten ++ lst) := by
  obtain ⟨_, h2, hall⟩ := (isValidDomain_iff s).mp h
  obtain ⟨ks, lst, h1, hs⟩ := splitOn_spec '.' s
  rw [h1] at h2 hall
  cases ks with
  | nil => simp at h2
  | cons l ls =>
    refine ⟨l, ls, lst, hall l (by simp), hall lst (by simp), ?_⟩
    rw [hs]
    simp

theorem validLabel_head {l : GoString} (h : validLabel l) :
    ∃ c cs, l = c :: cs ∧ c ≠ '.' := by
  cases l with
  | nil => exact absurd h.1 (by simp)
  | cons c cs =>
    refine ⟨c, cs, rfl, ?_⟩
    rintro rfl
    exact validLabel_dotFree h (List.mem_cons_self _ _)

theorem validLabel_last {l : GoString} (h : validLabel l) :
    ∃ cs c, l = cs ++ [c] ∧ c ≠ '.' := by
  rcases List.eq_nil_or_concat l with rfl | ⟨cs, c, hl⟩
  · exact absurd h.1 (by simp)
  · rw [List.concat_eq_append] at hl
    refine ⟨cs, c, hl, ?_⟩
    rintro rfl
    apply validLabel_dotFree h
    rw [hl]
    simp

/-- C20: a string accepted by `isValidDomain` contains a `.`, has two labels or more and three
characters or more, and has no `.` at its beginning, at its end, or next to another `.`; a
string without `.`, such as `localhost` or `com`, is rejected. -/
theorem isValidDomain_needs_dot (s : GoString) :
    (isValidDomain s = true →
      '.' ∈ s ∧ 2 ≤ (splitOn '.' s).length ∧ 3 ≤ s.length ∧ s.head? ≠ some '.' ∧
        s.getLast? ≠ some '.' ∧ ¬ ['.', '.'] <:+: s) ∧
    ('.' ∉ s → isValidDomain s = false) ∧
    isValidDomain "localhost".toList = false ∧ isValidDomain "com".toList = false := by
  have hmain : isValidDomain s = true →
      '.' ∈ s ∧ 2 ≤ (splitOn '.' s).length ∧ 3 ≤ s.length ∧ s.head? ≠ some '.' ∧
        s.getLast? ≠ some '.' ∧ ¬ ['.', '.'] <:+: s := by
    intro h
    obtain ⟨l, ls, lst, hl, hlst, hs⟩ := isValidDomain_decomp h
    obtain ⟨c, cs, hc, hcne⟩ := validLabel_head hl
    obtain ⟨ds, d, hd, hdne⟩ := validLabel_last hlst
    have hiff := (isValidDomain_iff s).mp h
    refine ⟨?_, hiff.2.1, ?_, ?_, ?_, ?_⟩
    · rw [hs]; simp
    · have h1 := hl.1
      have h2 := hlst.1
      rw [hs]
      simp only [List.length_append, List.length_cons]
      omega
    · rw [hs, hc]
      simp only [List.cons_append, List.head?_cons, ne_eq, Option.some.injEq]
      exact hcne
    · rw [hs, hd]
      have e : l ++ '.' :: ((ls.map (fun x => x ++ ['.'])).flatten ++ (ds ++ [d])) =
          (l ++ '.' :: ((ls.map (fun x => x ++ ['.'])).flatten ++ ds)) ++ [d] := by simp
      rw [e, List.getLast?_append]
      simp only [List.getLast?_singleton, Option.or_some, ne_eq, Option.some.injEq]
      exact hdne
    · rintro ⟨a, b, hab⟩
      have hnil : [] ∈ splitOn '.' s := by
        rw [← hab]
        have := nil_mem_tail_splitOn '.' a b
        simp only [List.append_assoc, List.cons_append, List.nil_append]
        exact List.mem_of_mem_tail this
      exact absurd (hiff.2.2 [] hnil).1 (by simp)
  have hnodot : ∀ t : GoString, '.' ∉ t → isValidDomain t = false := by
    intro t ht
    cases hv : isValidDomain t with
    | false => rfl
    | true =>
      have h2 := ((isValidDomain_iff t).mp hv).2.1
      rw [splitOn_dotFree '.' t ht] at h2
      simp at h2
  exact ⟨hmain, hnodot s, hnodot _ (by decide), hnodot _ (by decide)⟩

/-- C20, an instance: the domain `a.io`. -/
theorem isValidDomain_needs_dot_witness :
    '.' ∈ "a.io".toList ∧ 2 ≤ (splitOn '.' "a.io".toList).length ∧ 3 ≤ "a.io".toList.length ∧
      "a.io".toList.head? ≠ some '.' ∧ "a.io".toList.getLast? ≠ some '.' ∧
      ¬ ['.', '.'] <:+: "a.io".toList :=
  (isValidDomain_needs_dot "a.io".toList).1 (by decide)

theorem misplaced_dots_rejected :
    isValidDomain ".a.io".toList = false ∧ isValidDomain "a.io.".toList = false ∧
      isValidDomain "a..io".toList = false := by
  decide

/-! ### The goroutines and the channel -/

theorem sum_map_set {α : Type} (f : α → Nat) (l : List α) (i : Nat) (a b : α)
    (h : l[i]? = some a) : ((l.set i b).map f).sum + f a = (l.map f).sum + f b := by
  induction l generalizing i with
  | nil => simp at h
  | cons x xs ih =>
    cases i with
    | zero =>
      simp only [List.getElem?_cons_zero, Option.some.injEq] at h
      subst h
      simp only [List.set_cons_zero, List.map_cons, List.sum_cons]
      omega
    | succ j =>
      simp only [List.getElem?_cons_succ] at h
      have := ih j h
      simp only [List.set_cons_succ, List.map_cons, List.sum_cons]
      omega

theorem countP_set {α : Type} (p : α → Bool) (l : List α) (i : Nat) (a b : α)
    (h : l[i]? = some a) :
    (l.set i b).countP p + (if p a then 1 else 0) = l.countP p + (if p b then 1 else 0) := by
  induction l generalizing i with
  | nil => simp at h
  | cons x xs ih =>
    cases i with
    | zero =>
      simp only [List.getElem?_cons_zero, Option.some.injEq] at h
      subst h
      simp only [List.set_cons_zero, List.countP_cons]
      omega
    | succ j =>
      simp only [List.getElem?_cons_succ] at h
      have := ih j h
      simp only [List.set_cons_succ, List.countP_cons]
      omega

theorem initSched_inv (n : Nat) : (initSched n).Inv n := by
  constructor <;> simp [initSched]

theorem getElem?_set_cases (l : List Worker) (i j : Nat) (a b : Worker)
    (h : l[i]? = some a) :
    (l.set i b)[j]? = if j = i then some b else l[j]? := by
  have hi : i < l.length := by
    rcases Nat.lt_or_ge i l.length with h1 | h1
    · exact h1
    · rw [List.getElem?_eq_none h1] at h
      exact Option.noConfusion h
  by_cases hj : j = i
  · subst hj
    simp [hi]
  · rw [if_neg hj, List.getElem?_set_ne (fun e => hj e.symm)]

theorem getElem?_lt_of_some {l : List Worker} {i : Nat} {a : Worker} (h : l[i]? = some a) :
    i < l.length := by
  rcases Nat.lt_or_ge i l.length with h1 | h1
  · exact h1
  · rw [List.getElem?_eq_none h1] at h
    exact Option.noConfusion h

/-- Every step keeps what holds in the reachable states. -/
theorem step_inv (n : Nat) (a : Action) (s t : Sched) (hinv : s.Inv n)
    (hstep : step a s = some t) : t.Inv n := by
  obtain ⟨htotal, hcounter, hlaunch, hstarted, hclosed, hfinished, hnodup, hrecv⟩ := hinv
  cases a with
  | launch =>
    simp only [step] at hstep
    split_ifs at hstep with hc
    injection hstep with hstep
    subst hstep
    obtain ⟨hm, htodo⟩ := hc
    refine ⟨?_, ?_, hlaunch, ?_, ?_, hfinished, hnodup, ?_⟩
    · simp only [List.length_append, List.length_singleton]; omega
    · simp only [List.countP_append, hcounter]
      rfl
    · intro h; exact absurd hm h
    · intro h
      have := hlaunch.mp hm
      simp only at h
      rw [this] at h
      exact Closer.noConfusion h
    · intro i
      simp only
      rw [hrecv i]
      rcases Nat.lt_or_ge i s.workers.length with hi | hi
      · rw [List.getElem?_append_left hi]
      · rw [List.getElem?_eq_none hi, List.getElem?_append_right hi]
        rcases Nat.eq_zero_or_pos (i - s.workers.length) with h0 | h0
        · rw [h0]; simp
        · rw [List.getElem?_eq_none (by simpa using Nat.succ_le_of_lt h0)]
  | startCloser =>
    simp only [step] at hstep
    split_ifs at hstep with hc
    injection hstep with hstep
    subst hstep
    obtain ⟨hm, htodo⟩ := hc
    refine ⟨htotal, hcounter, ?_, ?_, ?_, ?_, hnodup, hrecv⟩
    · simp
    · intro _; exact htodo
    · intro h; exact Closer.noConfusion h
    · intro h; exact MainAt.noConfusion h
  | fetched i =>
    simp only [step] at hstep
    split_ifs at hstep with hc
    injection hstep with hstep
    subst hstep
    refine ⟨?_, ?_, hlaunch, hstarted, hclosed, hfinished, hnodup, ?_⟩
    · simpa using htotal
    · have := countP_set Worker.running s.workers i .fetching .sending hc
      simp only [Worker.running, if_true] at this
      simp only
      omega
    · intro j
      simp only
      rw [hrecv j, getElem?_set_cases s.workers i j .fetching .sending hc]
      by_cases hj : j = i
      · subst hj
        simp [hc]
      · simp [hj]
  | handoff i =>
    simp only [step] at hstep
    split_ifs at hstep with hc
    injection hstep with hstep
    subst hstep
    obtain ⟨hw, hm⟩ := hc
    have hnot : i ∉ s.received := by
      rw [hrecv i, hw]
      simp
    refine ⟨?_, ?_, hlaunch, hstarted, hclosed, hfinished, ?_, ?_⟩
    · simpa using htotal
    · have := countP_set Worker.running s.workers i .sending .sent hw
      simp only [Worker.running, if_true] at this
      simp only
      omega
    · simp only
      rw [List.nodup_append]
      refine ⟨hnodup, List.nodup_singleton i, ?_⟩
      intro x hx hx2
      rw [List.mem_singleton] at hx2
      subst hx2
      exact hnot hx
    · intro j
      simp only
      rw [List.mem_append, List.mem_singleton, hrecv j,
        getElem?_set_cases s.workers i j .sending .sent hw]
      by_cases hj : j = i
      · subst hj
        simp
      · simp [hj]
  | workerDone i =>
    simp only [step] at hstep
    split_ifs at hstep with hc
    injection hstep with hstep
    subst hstep
    refine ⟨?_, ?_, hlaunch, hstarted, ?_, hfinished, hnodup, ?_⟩
    · simpa using htotal
    · have := countP_set Worker.running s.workers i .sent .done hc
      simp only [Worker.running, if_true, Bool.false_eq_true, if_false] at this
      simp only
      omega
    · intro h
      have := hclosed h
      simp only
      omega
    · intro j
      simp only
      rw [hrecv j, getElem?_set_cases s.workers i j .sent .done hc]
      by_cases hj : j = i
      · subst hj
        simp [hc]
      · simp [hj]
  | close =>
    simp only [step] at hstep
    split_ifs at hstep with hc
    injection hstep with hstep
    subst hstep
    obtain ⟨hw, hz⟩ := hc
    refine ⟨htotal, hcounter, ?_, hstarted, ?_, ?_, hnodup, hrecv⟩
    · simp only [reduceCtorEq, iff_false]
      intro h
      have := hlaunch.mp h
      rw [hw] at this
      exact Closer.noConfusion this
    · intro _; exact hz
    · intro _; rfl
  | exitLoop =>
    simp only [step] at hstep
    split_ifs at hstep with hc
    injection hstep with hstep
    subst hstep
    obtain ⟨hm, hcl⟩ := hc
    refine ⟨htotal, hcounter, ?_, ?_, hclosed, ?_, hnodup, hrecv⟩
    · simp only [reduceCtorEq, false_iff]
      rw [hcl]
      exact fun h => Closer.noConfusion h
    · intro _
      exact hstarted (by rw [hm]; exact fun h => MainAt.noConfusion h)
    · intro _; exact hcl

theorem exec_inv (n : Nat) (as : List Action) (s t : Sched) (hinv : s.Inv n)
    (hexec : exec as s = some t) : t.Inv n := by
  induction as generalizing s with
  | nil =>
    simp only [exec, Option.some.injEq] at hexec
    rw [← hexec]; exact hinv
  | cons a as ih =>
    simp only [exec] at hexec
    cases hs : step a s with
    | none => rw [hs] at hexec; exact Option.noConfusion hexec
    | some u =>
      rw [hs] at hexec
      exact ih u (step_inv n a s u hinv hs) hexec

/-- Every step lowers the bound on the number of steps that can follow. -/
theorem step_measure (a : Action) (s t : Sched) (hstep : step a s = some t) :
    t.measure < s.measure := by
  cases a with
  | launch =>
    simp only [step] at hstep
    split_ifs at hstep with hc
    injection hstep with hstep
    subst hstep
    simp only [Sched.measure, List.map_append, List.sum_append, List.map_cons, List.map_nil,
      List.sum_cons, List.sum_nil, Worker.weight]
    omega
  | startCloser =>
    simp only [step] at hstep
    split_ifs at hstep with hc
    injection hstep with hstep
    subst hstep
    obtain ⟨hm, _⟩ := hc
    simp only [Sched.measure, hm]
    cases s.closer <;> simp
  | fetched i =>
    simp only [step] at hstep
    split_ifs at hstep with hc
    injection hstep with hstep
    subst hstep
    have := sum_map_set Worker.weight s.workers i .fetching .sending hc
    simp only [Worker.weight] at this
    simp only [Sched.measure]
    omega
  | handoff i =>
    simp only [step] at hstep
    split_ifs at hstep with hc
    injection hstep with hstep
    subst hstep
    have := sum_map_set Worker.weight s.workers i .sending .sent hc.1
    simp only [Worker.weight] at this
    simp only [Sched.measure]
    omega
  | workerDone i =>
    simp only [step] at hstep
    split_ifs at hstep with hc
    injection hstep with hstep
    subst hstep
    have := sum_map_set Worker.weight s.workers i .sent .done hc
    simp only [Worker.weight] at this
    simp only [Sched.measure]
    omega
  | close =>
    simp only [step] at hstep
    split_ifs at hstep with hc
    injection hstep with hstep
    subst hstep
    simp only [Sched.measure, hc.1]
    omega
  | exitLoop =>
    simp only [step] at hstep
    split_ifs at hstep with hc
    injection hstep with hstep
    subst hstep
    simp only [Sched.measure, hc.1]
    omega

theorem exec_measure (as : List Action) (s t : Sched) (hexec : exec as s = some t) :
    t.measure + as.length ≤ s.measure := by
  induction as generalizing s with
  | nil =>
    simp only [exec, Option.some.injEq] at hexec
    rw [← hexec]; simp
  | cons a as ih =>
    simp only [exec] at hexec
    cases hs : step a s with
    | none => rw [hs] at hexec; exact Option.noConfusion hexec
    | some u =>
      rw [hs] at hexec
      have h1 := ih u hexec
      have h2 := step_measure a s u hs
      simp only [List.length_cons]
      omega

/-- In a reachable state in which the loop over the channel has not ended, some goroutine can
take a step. -/
theorem inv_progress (n : Nat) (s : Sched) (hinv : s.Inv n) (hmain : s.main ≠ .finished) :
    ∃ a t, step a s = some t := by
  cases hm : s.main with
  | finished => exact absurd hm hmain
  | launching =>
    rcases Nat.eq_zero_or_pos s.todo with h0 | h0
    · exact ⟨.startCloser, _, by simp only [step]; rw [if_pos ⟨hm, h0⟩]⟩
    · exact ⟨.launch, _, by simp only [step]; rw [if_pos ⟨hm, h0⟩]⟩
  | receiving =>
    cases hc : s.closer with
    | notStarted =>
      have := hinv.launching.mpr hc
      rw [hm] at this
      exact MainAt.noConfusion this
    | closed => exact ⟨.exitLoop, _, by simp only [step]; rw [if_pos ⟨hm, hc⟩]⟩
    | waiting =>
      rcases Nat.eq_zero_or_pos s.wg with h0 | h0
      · exact ⟨.close, _, by simp only [step]; rw [if_pos ⟨hc, h0⟩]⟩
      · rw [hinv.counter] at h0
        obtain ⟨w, hw, hrun⟩ := List.countP_pos_iff.mp h0
        obtain ⟨i, hi, hget⟩ := List.getElem_of_mem hw
        have hget2 : s.workers[i]? = some w := by
          rw [List.getElem?_eq_getElem hi, hget]
        cases w with
        | done => exact absurd hrun (by simp [Worker.running])
        | fetching => exact ⟨.fetched i, _, by simp only [step]; rw [if_pos hget2]⟩
        | sending => exact ⟨.handoff i, _, by simp only [step]; rw [if_pos ⟨hget2, hm⟩]⟩
        | sent => exact ⟨.workerDone i, _, by simp only [step]; rw [if_pos hget2]⟩

/-- When the channel is closed, every source has its goroutine and every goroutine has
returned. -/
theorem inv_closed (n : Nat) (s : Sched) (hinv : s.Inv n) (hc : s.closer = .closed) :
    s.todo = 0 ∧ s.workers.length = n ∧ ∀ w ∈ s.workers, w = Worker.done := by
  have hm : s.main ≠ .launching := by
    intro h
    have := hinv.launching.mp h
    rw [hc] at this
    exact Closer.noConfusion this
  have htodo := hinv.started hm
  have htotal := hinv.total
  refine ⟨htodo, by omega, ?_⟩
  have hz := hinv.closed hc
  rw [hinv.counter, List.countP_eq_zero] at hz
  intro w hw
  have := hz w hw
  cases w <;> simp_all [Worker.running]

/-- When the loop over the channel has ended, one value has been received from each
goroutine. -/
theorem inv_finished (n : Nat) (s : Sched) (hinv : s.Inv n) (hm : s.main = .finished) :
    s.received.Perm (List.range n) := by
  obtain ⟨_, hlen, hall⟩ := inv_closed n s hinv (hinv.finished hm)
  rw [List.perm_ext_iff_of_nodup hinv.nodup (List.nodup_range n)]
  intro i
  rw [List.mem_range, hinv.received i]
  constructor
  · intro h
    rw [← hlen]
    rcases h with h | h <;> exact getElem?_lt_of_some h
  · intro hi
    rw [← hlen] at hi
    right
    rw [List.getElem?_eq_getElem hi]
    exact congrArg some (hall _ (List.getElem_mem _))

/-- A goroutine at its send can take a step exactly when `main` is at the loop over the
channel. -/
theorem sending_enabled_iff (s : Sched) (i : Nat) (h : s.workers[i]? = some .sending) :
    workerEnabled s i = true ↔ s.main = .receiving := by
  simp [workerEnabled, step, h]

theorem exec_append (as bs : List Action) (s : Sched) :
    exec (as ++ bs) s = (exec as s).bind (exec bs) := by
  induction as generalizing s with
  | nil => rfl
  | cons a as ih =>
    simp only [List.cons_append, exec]
    cases step a s with
    | none => rfl
    | some t => exact ih t

/-- From a reachable state the goroutines can go on to the end of the loop over the channel. -/
theorem inv_can_finish (n : Nat) (s : Sched) (hinv : s.Inv n) :
    ∃ rest t, exec rest s = some t ∧ t.main = .finished := by
  generalize hk : s.measure = k
  induction k using Nat.strong_induction_on generalizing s with
  | _ k ih =>
    by_cases hm : s.main = .finished
    · exact ⟨[], s, rfl, hm⟩
    · obtain ⟨a, u, hstep⟩ := inv_progress n s hinv hm
      have hlt := step_measure a s u hstep
      rw [hk] at hlt
      obtain ⟨rest, t, hexec, hfin⟩ := ih u.measure hlt u (step_inv n a s u hinv hstep) rfl
      refine ⟨a :: rest, t, ?_, hfin⟩
      simp only [exec, hstep]
      exact hexec

theorem filterMap_range_getElem? {α : Type} (xs : List α) :
    (List.range xs.length).filterMap (fun i => xs[i]?) = xs := by
  apply List.ext_getElem?
  intro i
  induction xs using List.reverseRecOn generalizing i with
  | nil => simp
  | append_singleton xs x ih =>
    rw [List.length_append, List.length_singleton, List.range_succ, List.filterMap_append]
    have h1 : List.filterMap (fun i => (xs ++ [x])[i]?) (List.range xs.length) = xs := by
      have : List.filterMap (fun i => (xs ++ [x])[i]?) (List.range xs.length) =
          List.filterMap (fun i => xs[i]?) (List.range xs.length) := by
        apply List.filterMap_congr
        intro j hj
        rw [List.mem_range] at hj
        rw [List.getElem?_append_left hj]
      rw [this]
      apply List.ext_getElem?
      exact ih
    rw [h1]
    simp

/-- C18 (as stated, refuted): the channel has no buffer. With two sources, once `main` has
started the first goroutine and this goroutine has fetched its list, the goroutine is at its
send and cannot take a step: it waits until `main`, which still reads the configuration, comes
to receive. -/
theorem producer_blocks_before_receive :
    exec [.launch, .fetched 0] (initSched 2) = some blockedState ∧
      blockedState.workers[0]? = some Worker.sending ∧
      workerEnabled blockedState 0 = false := by
  decide

/-- C18 (amended): in every state that the goroutines can reach for `n` sources, whatever the
interleaving, a step is possible until the loop over the channel has ended, and the run can go
on to that end; the number of steps is bounded; a goroutine at its send, the channel having
no buffer, can take its step exactly when `main` is at the loop over the channel; the channel
is closed only when every source has its goroutine and every goroutine has returned; no value
is received twice; and when the loop over the channel has ended, exactly one value has been
received from each goroutine, so that the values received are the outcomes of the sources
started, in some order. -/
theorem goroutines_no_deadlock (n : Nat) (as : List Action) (s : Sched)
    (hexec : exec as (initSched n) = some s) :
    (s.main ≠ .finished → ∃ a t, step a s = some t) ∧
    (∃ rest t, exec rest s = some t ∧ t.main = .finished) ∧
    s.measure + as.length ≤ 4 * n + 4 ∧
    (∀ i, s.workers[i]? = some .sending → (workerEnabled s i = true ↔ s.main = .receiving)) ∧
    (s.closer = .closed →
      s.todo = 0 ∧ s.workers.length = n ∧ ∀ w ∈ s.workers, w = Worker.done) ∧
    s.received.Nodup ∧
    (s.main = .finished → s.received.Perm (List.range n) ∧
      ∀ (U : CaseMapping) (http : Nat → GoString → Except GoError Response)
        (launched : List URLItem), launched.length = n →
        (s.received.filterMap (fun i => (outcomes U http launched)[i]?)).Perm
          (outcomes U http launched)) := by
  have hinv := exec_inv n as (initSched n) s (initSched_inv n) hexec
  have hmeasure := exec_measure as (initSched n) s hexec
  refine ⟨inv_progress n s hinv, inv_can_finish n s hinv, ?_, sending_enabled_iff s,
    inv_closed n s hinv, hinv.nodup, ?_⟩
  · have : (initSched n).measure = 4 * n + 4 := by simp [Sched.measure, initSched]
    omega
  · intro hm
    have hperm := inv_finished n s hinv hm
    refine ⟨hperm, ?_⟩
    intro U http launched hlen
    have h1 := hperm.filterMap (fun i => (outcomes U http launched)[i]?)
    have h2 := filterMap_range_getElem? (outcomes U http launched)
    rw [outcomes_length, hlen] at h2
    rw [h2] at h1
    exact h1

/-- C18, an instance: a run of two goroutines in which the value of the second is received
first. -/
theorem goroutines_no_deadlock_witness :
    (∃ rest t, exec rest
        { todo := 0, workers := [.done, .done], wg := 0, main := .finished, closer := .closed,
          received := [1, 0] } = some t ∧ t.main = .finished) ∧
      [1, 0].Perm (List.range 2) :=
  ⟨(goroutines_no_deadlock 2 exampleRun
      { todo := 0, workers := [.done, .done], wg := 0, main := .finished, closer := .closed,
        received := [1, 0] } (by decide)).2.1,
   ((goroutines_no_deadlock 2 exampleRun
      { todo := 0, workers := [.done, .done], wg := 0, main := .finished, closer := .closed,
        received := [1, 0] } (by decide)).2.2.2.2.2.2 rfl).1⟩

/-! ### The scanner and the lines of a body -/

/-- When every segment is shorter than the limit, the scanner returns the lines and no
error. -/
theorem scanTokens_short (segs : List GoString)
    (h : ∀ seg ∈ segs, goLen seg < MaxScanTokenSize) :
    scanTokens segs = (linesOf segs, none) := by
  induction segs with
  | nil => rfl
  | cons seg rest ih =>
    have hseg : ¬ MaxScanTokenSize ≤ goLen seg :=
      Nat.not_le.mpr (h seg (List.mem_cons_self _ _))
    cases rest with
    | nil =>
      simp only [scanTokens, linesOf, if_neg hseg]
      split <;> rfl
    | cons next rest =>
      have ih2 := ih (fun s hs => h s (List.mem_cons_of_mem _ hs))
      simp only [scanTokens, linesOf, if_neg hseg, ih2]

/-- The tokens of the scanner are the first lines of the body; the scanner ends without an
error when it has returned all of them, and with `ErrTooLong` at the first segment of
`MaxScanTokenSize` bytes or more. -/
theorem scanTokens_prefix (segs : List GoString) :
    (scanTokens segs).1 = (linesOf segs).take (scanTokens segs).1.length ∧
      ((scanTokens segs).2 = none → (scanTokens segs).1 = linesOf segs) ∧
      ((scanTokens segs).2 ≠ none →
        (scanTokens segs).2 = some ErrTooLong ∧
          ∃ seg, segs[(scanTokens segs).1.length]? = some seg ∧
            MaxScanTokenSize ≤ goLen seg) := by
  induction segs with
  | nil => simp [scanTokens, linesOf]
  | cons seg rest ih =>
    by_cases hseg : MaxScanTokenSize ≤ goLen seg
    · cases rest with
      | nil =>
        simp only [scanTokens, if_pos hseg]
        simpa using hseg
      | cons next rest =>
        simp only [scanTokens, if_pos hseg]
        simpa using hseg
    · cases rest with
      | nil =>
        by_cases he : seg = []
        · subst he
          simp only [scanTokens, linesOf, if_neg hseg]
          simp
        · simp only [scanTokens, linesOf, if_neg hseg, if_neg he]
          simp
      | cons next rest =>
        obtain ⟨h1, h2, h3⟩ := ih
        simp only [scanTokens, linesOf, if_neg hseg, List.length_cons, List.take_succ_cons,
          List.cons.injEq, true_and, List.getElem?_cons_succ]
        exact ⟨h1, h2, h3⟩

theorem goLen_longLine : MaxScanTokenSize ≤ goLen longLine := by
  have h1 := length_le_goLen longLine
  have h2 : longLine.length = 65536 := List.length_replicate _ _
  have h3 : MaxScanTokenSize = 65536 := rfl
  omega

theorem longLine_no_newline : '\n' ∉ longLine := by
  intro h
  exact absurd (List.eq_of_mem_replicate h) (by decide)

theorem splitOn_longBody :
    splitOn '\n' longBody = [longLine, "BAD_DOMAIN".toList, []] := by
  unfold longBody
  rw [splitOn_append_sep '\n' longLine _ longLine_no_newline]
  have : splitOn '\n' "BAD_DOMAIN\n".toList = ["BAD_DOMAIN".toList, []] := by decide
  rw [this]

theorem scanLines_longBody : scanLines longBody = ([], some ErrTooLong) := by
  unfold scanLines
  rw [splitOn_longBody]
  simp only [scanTokens, if_pos goLen_longLine]

theorem longLine_cons : longLine = 'a' :: List.replicate 65535 'a' := rfl

theorem isSkipped_letter (rest : GoString) : isSkipped ('a' :: rest) = false := by
  cases rest with
  | nil => decide
  | cons d ds => simp [isSkipped, hasPrefix, List.isPrefixOf]

theorem trimSpace_longLine : trimSpace longLine = longLine := by
  apply trimSpace_of_no_space
  intro c hc
  rw [List.eq_of_mem_replicate hc]
  decide

theorem toLower_longLine : toLower asciiCase longLine = longLine := by
  unfold toLower longLine
  rw [List.map_replicate]
  rfl

theorem isValidDomain_longLine : isValidDomain longLine = false := by
  have h := goLen_longLine
  have h3 : MaxScanTokenSize = 65536 := rfl
  unfold isValidDomain
  rw [if_pos (by omega)]

theorem dropCR_longLine : dropCR longLine = longLine := by
  unfold dropCR
  rw [if_neg]
  have : longLine = List.replicate 65535 'a' ++ ['a'] := by
    unfold longLine
    rw [← List.replicate_succ']
  rw [this, List.getLast?_append]
  intro h
  exact absurd (show some 'a' = some '\r' from h) (by decide)

theorem bodyLines_longBody : bodyLines longBody = [longLine, "BAD_DOMAIN".toList] := by
  unfold bodyLines
  rw [splitOn_longBody]
  simp only [linesOf, dropCR_longLine, if_true]
  rfl

/-- C10 (as stated, refuted): a body of two lines, the first of 65536 letters and the second
`BAD_DOMAIN`. Both lines are neither blank nor a comment and fail `isValidDomain`; the scanner
stops at the first with `ErrTooLong`, and `downloadList` prints no warning at all, does not
read the second line, and returns the error. -/
theorem long_line_aborts_list :
    bodyLines longBody = [longLine, "BAD_DOMAIN".toList] ∧
      (∀ l ∈ bodyLines longBody, isSkipped (trimSpace l) = false ∧
        isValidDomain (toLower asciiCase (trimSpace l)) = false) ∧
      (downloadList asciiCase (fun _ => .ok (bodyResponse StatusOK longBody))
        "http://x/long.txt".toList).warnings = [] ∧
      (downloadList asciiCase (fun _ => .ok (bodyResponse StatusOK longBody))
        "http://x/long.txt".toList).domains = [] ∧
      (downloadList asciiCase (fun _ => .ok (bodyResponse StatusOK longBody))
        "http://x/long.txt".toList).err =
          some (.readFailed "http://x/long.txt".toList ErrTooLong) := by
  have hresp : bodyResponse StatusOK longBody =
      { StatusCode := StatusOK, lines := [], scanErr := some ErrTooLong } := by
    unfold bodyResponse
    rw [scanLines_longBody]
  refine ⟨bodyLines_longBody, ?_, ?_, ?_, ?_⟩
  · intro l hl
    rw [bodyLines_longBody] at hl
    rcases List.mem_cons.mp hl with h | h
    · subst h
      rw [trimSpace_longLine, toLower_longLine]
      exact ⟨by rw [longLine_cons]; exact isSkipped_letter _, isValidDomain_longLine⟩
    · rw [List.mem_singleton] at h
      subst h
      decide
  · rw [hresp]; rfl
  · rw [hresp]; rfl
  · rw [hresp]; rfl

theorem take_length_le {α : Type} (l m : List α) (h : l = m.take l.length) :
    l.length ≤ m.length := by
  have := congrArg List.length h
  rw [List.length_take] at this
  omega

/-- C10 (amended): for a response with status 200 whose body arrives whole, when every line of
the body is shorter than 65536 bytes `downloadList` returns no error and prints exactly the
warnings of the lines of the body that are neither empty nor a comment and fail
`isValidDomain` in lower case, each with the position of its line counted from 1 over all the
lines, in increasing order, and the domains and the warnings are together as many as the
lines that are neither empty nor a comment; in general the domains and the warnings are those
of the lines before the first line of 65536 bytes or more: such a line stops the scan with an
error, gets no warning, and the lines after it are not read. -/
theorem downloadList_warnings_body (U : CaseMapping)
    (httpGet : GoString → Except GoError Response) (url body : GoString)
    (hget : httpGet url = .ok (bodyResponse StatusOK body)) :
    ((∀ seg ∈ splitOn '\n' body, goLen seg < MaxScanTokenSize) →
      (downloadList U httpGet url).err = none ∧
      (downloadList U httpGet url).domains = specDomains U (bodyLines body) ∧
      (downloadList U httpGet url).warnings = specWarnings U (bodyLines body) ∧
      (∀ w ∈ (downloadList U httpGet url).warnings, 1 ≤ w.1 ∧
        ∃ text, (bodyLines body)[w.1 - 1]? = some text ∧ w.2 = trimSpace text ∧
          isSkipped (trimSpace text) = false ∧
          isValidDomain (toLower U (trimSpace text)) = false) ∧
      ((downloadList U httpGet url).warnings.map Prod.fst).Sorted (· < ·) ∧
      (downloadList U httpGet url).domains.length +
          (downloadList U httpGet url).warnings.length =
        (((bodyLines body).map trimSpace).filter (fun l => !isSkipped l)).length) ∧
    (∃ k, k ≤ (bodyLines body).length ∧
      (downloadList U httpGet url).domains = specDomains U ((bodyLines body).take k) ∧
      (downloadList U httpGet url).warnings = specWarnings U ((bodyLines body).take k) ∧
      ((downloadList U httpGet url).err = none → k = (bodyLines body).length) ∧
      ((downloadList U httpGet url).err ≠ none →
        ∃ seg, (splitOn '\n' body)[k]? = some seg ∧ MaxScanTokenSize ≤ goLen seg)) := by
  have hspec := downloadList_warnings_spec U httpGet url (bodyResponse StatusOK body) hget rfl
  obtain ⟨hd, hw, herr⟩ := downloadList_ok U httpGet url (bodyResponse StatusOK body) hget rfl
  constructor
  · intro hshort
    have hscan : scanLines body = (bodyLines body, none) := scanTokens_short _ hshort
    have hlines : (bodyResponse StatusOK body).lines = bodyLines body := by
      simp only [bodyResponse, hscan]
    have hnone : (bodyResponse StatusOK body).scanErr = none := by
      simp only [bodyResponse, hscan]
    rw [hlines] at hspec
    exact ⟨herr.mpr hnone, hspec⟩
  · obtain ⟨h1, h2, h3⟩ := scanTokens_prefix (splitOn '\n' body)
    refine ⟨(scanLines body).1.length, take_length_le _ _ h1, ?_, ?_, ?_, ?_⟩
    · rw [hd]
      exact congrArg (specDomains U) h1
    · rw [hw]
      exact congrArg (specWarnings U) h1
    · intro he
      have := h2 (herr.mp he)
      exact congrArg List.length this
    · intro he
      have hne : (scanTokens (splitOn '\n' body)).2 ≠ none := fun h => he (herr.mpr h)
      exact (h3 hne).2

/-- C10, an instance: the body of `cn.txt`, with one warning, for its line 3. -/
theorem downloadList_warnings_body_witness :
    (downloadList asciiCase (fun _ => .ok (bodyResponse StatusOK cnBody))
        "http://x/cn.txt".toList).err = none ∧
      (downloadList asciiCase (fun _ => .ok (bodyResponse StatusOK cnBody))
        "http://x/cn.txt".toList).domains = specDomains asciiCase (bodyLines cnBody) ∧
      (downloadList asciiCase (fun _ => .ok (bodyResponse StatusOK cnBody))
        "http://x/cn.txt".toList).warnings = [(3, "BAD_DOMAIN".toList)] :=
  ⟨((downloadList_warnings_body asciiCase (fun _ => .ok (bodyResponse StatusOK cnBody))
      "http://x/cn.txt".toList cnBody rfl).1 (by decide)).1,
   ((downloadList_warnings_body asciiCase (fun _ => .ok (bodyResponse StatusOK cnBody))
      "http://x/cn.txt".toList cnBody rfl).1 (by decide)).2.1,
   (((downloadList_warnings_body asciiCase (fun _ => .ok (bodyResponse StatusOK cnBody))
      "http://x/cn.txt".toList cnBody rfl).1 (by decide)).2.2.1).trans (by decide)⟩

end Geosite
